import Mathlib

/-!
Verification development for the media-insights repository
(`src/diligence/formatters.py`, `src/diligence/pivoting.py`,
`src/diligence/insights.py`).

Shallow embedding conventions:
* A pandas cell is a `Cell`: text, an exact rational number, or the missing
  marker (`NaN`/`None`).  Python floats are modelled as exact rationals; the
  observable behaviour of `str(float)` (shortest round-tripping decimal) is
  modelled by an exact decimal renderer `renderQ` together with the fact that
  every number produced by parsing a decimal string has a denominator of the
  form `2^a * 5^b`.
* Fallible pandas operations (the index errors raised by
  `add_row_subtotals_and_total` on mismatched index levels, and the
  `pd.concat` of an empty list) are modelled with `Except String`.
* The repository hard-wires `columns_cols = []` (src/app.py line 151); the
  embedding keeps the `columns_cols` argument because `build_pivot` consults
  it in its validation guards and branch conditions, and models the data path
  at that operating point (no column-group cross-tabulation).
* `pd.pivot_table`'s final `sort_index(axis=1)` is a permutation of the value
  columns; the embedding keeps the caller's `value_cols` order, which is
  immaterial to the per-column properties proved here.
-/

namespace MediaInsights

/-- A pandas cell: a string, a (finite, exact) number, or the missing marker. -/
inductive Cell where
  | text (s : String)
  | num (q : ℚ)
  | missing
deriving DecidableEq, Repr

/-- The non-breaking space stripped by `to_num` (formatters.py line 12). -/
def nbsp : Char := '\u00A0'

/-- Digit character for `d % 10`. -/
def digitChar (d : ℕ) : Char :=
  match d with
  | 0 => '0' | 1 => '1' | 2 => '2' | 3 => '3' | 4 => '4'
  | 5 => '5' | 6 => '6' | 7 => '7' | 8 => '8' | _ => '9'

/-- Numeric value of a digit character. -/
def digitVal (c : Char) : ℕ := c.toNat - 48

/-- Is this an ASCII digit? -/
def isDig (c : Char) : Bool := '0' ≤ c && c ≤ '9'

/-- Value of a most-significant-digit-first digit string. -/
def natVal (ds : List Char) : ℕ := Nat.ofDigits 10 ((ds.map digitVal).reverse)

/-- Fuel-driven little-endian decimal digits of `n` (fuel-structural so that
the kernel can evaluate it; agrees with `Nat.digits 10` when the fuel
suffices). -/
def digitsLE : ℕ → ℕ → List ℕ
  | 0, _ => []
  | f + 1, n => if n = 0 then [] else n % 10 :: digitsLE f (n / 10)

/-- Most-significant-first decimal digit characters of `n` (empty for 0). -/
def natDigits (n : ℕ) : List Char := ((digitsLE n n).map digitChar).reverse

/-- The character normalisation of `to_num` (formatters.py lines 12-14):
remove non-breaking and ordinary spaces, then turn commas into dots. -/
def normalizeChars (cs : List Char) : List Char :=
  (cs.filter (fun c => c ≠ ' ' && c ≠ nbsp)).map (fun c => if c = ',' then '.' else c)

/-- Parse an unsigned decimal numeral (digits with at most one dot, at least
one digit), the fragment of the `pd.to_numeric` string parser exercised by
this code base (scientific notation and `inf`/`nan` literals are out of
scope; an unparseable string is reported as `none`, i.e. coerced to NaN). -/
def parseUnsigned (cs : List Char) : Option ℚ :=
  let intp := cs.takeWhile (fun c => c ≠ '.')
  match cs.dropWhile (fun c => c ≠ '.') with
  | [] =>
    if !intp.isEmpty && intp.all isDig then some (natVal intp) else none
  | _ :: frac =>
    if (!intp.isEmpty || !frac.isEmpty) && intp.all isDig && frac.all isDig then
      some ((natVal (intp ++ frac) : ℚ) / (10 : ℚ) ^ frac.length)
    else none

/-- Parse an optionally signed decimal numeral. -/
def parseNum (cs : List Char) : Option ℚ :=
  match cs with
  | [] => none
  | c :: rest =>
    if c = '-' then (parseUnsigned rest).map (fun q => -q)
    else if c = '+' then parseUnsigned rest
    else parseUnsigned (c :: rest)

/-- Fuel-driven multiplicity of `p` in `d` (fuel-structural so that the
kernel can evaluate it). -/
def pMultAux : ℕ → ℕ → ℕ → ℕ
  | 0, _, _ => 0
  | f + 1, p, d => if 2 ≤ p ∧ d ≠ 0 ∧ d % p = 0 then pMultAux f p (d / p) + 1 else 0

/-- Multiplicity of the prime `p` in `d`. -/
def pMult (p d : ℕ) : ℕ := pMultAux d p d

/-- Fuel-driven removal of all factors `p` from `d`. -/
def stripPAux : ℕ → ℕ → ℕ → ℕ
  | 0, _, d => d
  | f + 1, p, d => if 2 ≤ p ∧ d ≠ 0 ∧ d % p = 0 then stripPAux f p (d / p) else d

/-- `d` with all factors `p` removed. -/
def stripP (p d : ℕ) : ℕ := stripPAux d p d

/-- `q` has a finite decimal representation (its reduced denominator is of
the form `2^a * 5^b`).  Every Python float that this program ever prints has
this property, since `str(float)` yields a finite decimal. -/
def decDen (q : ℚ) : Prop := stripP 5 (stripP 2 q.den) = 1

instance (q : ℚ) : Decidable (decDen q) := by unfold decDen; infer_instance

/-- The digit part of a decimal rendering: the digits of `n`, left-padded to
at least `e + 1` characters, with a decimal point before the last `e`
digits when `e > 0` (so the rendered value is `n / 10 ^ e`). -/
def renderCore (n e : ℕ) : List Char :=
  (List.replicate (e + 1 - (natDigits n).length) '0' ++ natDigits n).take
      ((List.replicate (e + 1 - (natDigits n).length) '0' ++ natDigits n).length - e) ++
    (if e = 0 then [] else
      '.' :: (List.replicate (e + 1 - (natDigits n).length) '0' ++ natDigits n).drop
        ((List.replicate (e + 1 - (natDigits n).length) '0' ++ natDigits n).length - e))

/-- Exact decimal rendering of a rational, modelling Python's `str` on a
float: every value this program prints was obtained by decimal parsing, hence
has a `2^a * 5^b` denominator and renders exactly; other rationals (never
produced by the code) render as an unparseable placeholder. -/
def renderQ (q : ℚ) : List Char :=
  if decDen q then
    (if q < 0 then ['-'] else []) ++
      renderCore
        (q.num.natAbs * (10 ^ (pMult 2 q.den + pMult 5 (stripP 2 q.den)) / q.den))
        (pMult 2 q.den + pMult 5 (stripP 2 q.den))
  else ['?']

/-- `str(value)` for a cell: numbers print as decimals, the missing marker
(NaN) prints as `"nan"` (which `pd.to_numeric` coerces back to missing). -/
def cellToChars : Cell → List Char
  | .text s => s.data
  | .num q => renderQ q
  | .missing => ['n', 'a', 'n']

/-- One element of `to_num` (formatters.py lines 9-16): stringify, strip
spaces, comma to dot, parse; parse failure becomes missing. -/
def toNumCell (c : Cell) : Cell :=
  match parseNum (normalizeChars (cellToChars c)) with
  | some q => .num q
  | none => .missing

/-- `to_num` (formatters.py lines 9-16) on a column of cells. -/
def to_num (xs : List Cell) : List Cell := xs.map toNumCell

/-! ## Pivot builder (`src/diligence/pivoting.py`) -/

/-- The six aggregator identifiers accepted by `build_pivot`. -/
inductive Agg where
  | agg_sum | mean | count | median | agg_min | agg_max
deriving DecidableEq, Repr

/-- Does `build_pivot` run the metric columns through `to_num` for this
aggregator (pivoting.py line 39: every aggregator except `count`)? -/
def Agg.needsCoerce : Agg → Bool
  | .count => false
  | _ => true

/-- Numeric reading of a cell (`NaN` and text aggregate as missing). -/
def cellQ : Cell → Option ℚ
  | .num q => some q
  | _ => none

/-- Stable insertion of `x` into `l`, before the first element `y` with
`le x y`. -/
def insertLe (le : α → α → Bool) (x : α) : List α → List α
  | [] => [x]
  | y :: ys => if le x y then x :: y :: ys else y :: insertLe le x ys

/-- Insertion sort with a boolean `le` relation. -/
def sortLe (le : α → α → Bool) (l : List α) : List α := l.foldr (insertLe le) []

/-- Lexicographic order on row-key tuples (pandas sorts group keys). -/
def keyLe : List String → List String → Bool
  | [], _ => true
  | _ :: _, [] => false
  | a :: as, b :: bs => if a < b then true else if a = b then keyLe as bs else false

/-- First-appearance deduplication (pandas `Index.unique`). -/
def dedupFA [DecidableEq α] (l : List α) : List α :=
  l.foldl (fun acc x => if x ∈ acc then acc else acc ++ [x]) []

/-- Median with pandas semantics: middle element, or the mean of the two
middle elements for an even count. -/
def medianQ (l : List ℚ) : ℚ :=
  let s := sortLe (fun a b => decide (a ≤ b)) l
  let n := s.length
  if n % 2 = 1 then s.getD (n / 2) 0
  else (s.getD (n / 2 - 1) 0 + s.getD (n / 2) 0) / 2

/-- One group/column aggregation as performed by `pd.pivot_table`'s
`aggfunc`: missing values are skipped; an empty set of observations yields
`NaN` (`none`) for every aggregator except `sum` (which yields 0) and
`count` (which counts the non-missing raw values). -/
def applyAgg (agg : Agg) (cells : List Cell) : Option ℚ :=
  match agg with
  | .count => some (((cells.filter (fun c => c ≠ .missing)).length : ℚ))
  | .agg_sum => some (cells.filterMap cellQ).sum
  | .mean =>
    let v := cells.filterMap cellQ
    if v.isEmpty then none else some (v.sum / v.length)
  | .median =>
    let v := cells.filterMap cellQ
    if v.isEmpty then none else some (medianQ v)
  | .agg_min =>
    let v := cells.filterMap cellQ
    if v.isEmpty then none else some (v.foldr min (v.headD 0))
  | .agg_max =>
    let v := cells.filterMap cellQ
    if v.isEmpty then none else some (v.foldr max (v.headD 0))

/-- A row of the input table, restricted to the columns `build_pivot` reads
at the repository's operating point (`columns_cols = []`): the row-group key
values (one per `index_cols` entry, in order) and the metric cell values
(one per `value_cols` entry, in order). -/
structure DFRow where
  rkeys : List String
  vals : List Cell
deriving DecidableEq, Repr

/-- The coercion loop of `build_pivot` (pivoting.py lines 38-41): every
metric column goes through `to_num` unless the aggregator is `count`. -/
def coerceRows (agg : Agg) (rows : List DFRow) : List DFRow :=
  if agg.needsCoerce then rows.map (fun r => { r with vals := r.vals.map toNumCell }) else rows

/-- The cells of metric column `j` inside the group keyed `k`. -/
def groupCells (rows : List DFRow) (k : List String) (j : ℕ) : List Cell :=
  (rows.filter (fun r => r.rkeys = k)).map (fun r => r.vals.getD j .missing)

/-- The sorted distinct group keys of the table (pandas groups with
`sort=True`). -/
def pivotKeys (rows : List DFRow) : List (List String) :=
  sortLe keyLe (dedupFA (rows.map (fun r => r.rkeys)))

/-- The aggregation step of `pd.pivot_table`: one output row per observed
group key (sorted), one aggregated value per metric column. -/
def aggregated (rows : List DFRow) (nv : ℕ) (agg : Agg) :
    List (List String × List (Option ℚ)) :=
  let rs := coerceRows agg rows
  (pivotKeys rs).map (fun k => (k, (List.range nv).map (fun j => applyAgg agg (groupCells rs k j))))

/-- `pd.pivot_table(..., fill_value=0, margins=False)` at the repository's
operating point (row grouping only): aggregate per group, drop the rows in
which every aggregated cell is missing (pandas' internal
`dropna(how="all")`), then replace each remaining missing cell with the
fill value 0. -/
def pivot_table (rows : List DFRow) (nv : ℕ) (agg : Agg) :
    List (List String × List (Option ℚ)) :=
  ((aggregated rows nv agg).filter (fun r => r.2.any Option.isSome)).map
    (fun r => (r.1, r.2.map (fun c => some (c.getD 0))))

/-- A pivot table: index level names, column labels (tuples when the column
index is hierarchical, `multiCols = true`), and rows of key tuple plus one
cell per column. -/
structure Pivot where
  idxNames : List String
  colLabels : List (List String)
  multiCols : Bool
  rows : List (List String × List (Option ℚ))
deriving DecidableEq, Repr

/-- `DataFrame.sum` on column `j` over the given rows (`skipna`: missing
cells contribute nothing). -/
def colSum (rows : List (List String × List (Option ℚ))) (j : ℕ) : ℚ :=
  (rows.map (fun r => (r.2.getD j none).getD 0)).sum

/-- Column-wise sums of `n` columns over the given rows. -/
def colSums (n : ℕ) (rows : List (List String × List (Option ℚ))) : List ℚ :=
  (List.range n).map (colSum rows)

def subtotal_label : String := "Sous-total"

def total_label : String := "Total"

/-- The body-plus-subtotal rows (`out` in pivoting.py lines 8-15): each
level-0 group block followed by its subtotal row. -/
def subtotalRows (pvt : Pivot) : List (List String × List (Option ℚ)) :=
  (dedupFA (pvt.rows.map (fun r => r.1.headD ""))).flatMap (fun g =>
    let block := pvt.rows.filter (fun r => r.1.headD "" = g)
    block ++ [([g, subtotal_label], (colSums pvt.colLabels.length block).map some)])

/-- Appending the plain Total row (pivoting.py lines 20-23 and 60-66):
the column-wise sum of every existing row, keyed `"Total"`. -/
def appendPlainTotal (pvt : Pivot) : Pivot :=
  { pvt with
    rows := pvt.rows ++ [([total_label], (colSums pvt.colLabels.length pvt.rows).map some)] }

/-- `add_row_subtotals_and_total` (pivoting.py lines 5-23).  For a
hierarchical index (two or more levels) it inserts one subtotal row after
each level-0 group (keyed `(g, "Sous-total")`, always a 2-tuple), then
appends a total row summing every row whose level-1 key differs from
`"Sous-total"`.  With three or more index levels the first subtotal row's
`MultiIndex.from_tuples([(g, subtotal_label)], names=pvt.index.names)`
(line 13) receives one 2-tuple but three or more names and raises
`ValueError("Length of names must match number of levels in MultiIndex.")`
— modelled by the `.error` branch (the loop runs only when there is at
least one level-0 group); with no groups at all, `pd.concat` of the empty
list of pieces (line 15) raises instead.  For a flat index it just appends
a total row summing every row. -/
def add_row_subtotals_and_total (pvt : Pivot) : Except String Pivot :=
  if 2 ≤ pvt.idxNames.length then
    if (dedupFA (pvt.rows.map (fun r => r.1.headD ""))).isEmpty then
      .error "No objects to concatenate"
    else if pvt.idxNames.length = 2 then
      .ok { pvt with
            rows := subtotalRows pvt ++
              [([total_label, ""],
                (colSums pvt.colLabels.length
                  ((subtotalRows pvt).filter
                    (fun r => r.1.getD 1 "" ≠ subtotal_label))).map some)] }
    else .error "Length of names must match number of levels in MultiIndex."
  else
    .ok (appendPlainTotal pvt)

/-- The pivot produced by `pd.pivot_table` plus the explicit
`dropna(how="all")` of pivoting.py line 55 (a no-op after `fill_value=0`,
kept for faithfulness), before any total rows are added. -/
def pivotBase (df : List DFRow) (index_cols value_cols : List String) (agg : Agg) : Pivot :=
  ⟨index_cols, value_cols.map (fun v => [v]), false,
    (pivot_table df value_cols.length agg).filter (fun r => r.2.any Option.isSome)⟩

/-- `build_pivot` (pivoting.py lines 25-69) at the repository's operating
point `columns_cols = []` (src/app.py line 151; the `columns_cols` argument
still drives the validation guards and the branch condition exactly as in
the source).  Returns `(pivot?, message)`; unhandled pandas exceptions are
`.error`. -/
def build_pivot (df : List DFRow) (index_cols columns_cols value_cols : List String)
    (agg_choice : Agg) : Except String (Option Pivot × String) :=
  if index_cols = [] ∧ columns_cols = [] then
    .ok (none, "Choisis au moins **une** colonne pour *Lignes* **ou** *Colonnes*.")
  else if value_cols = [] then
    .ok (none, "Choisis au moins **une** métrique dans *Valeurs*.")
  else if 2 ≤ index_cols.length ∧ columns_cols = [] then
    (add_row_subtotals_and_total (pivotBase df index_cols value_cols agg_choice)).map
      (fun p => (some p, ""))
  else
    .ok (some (appendPlainTotal (pivotBase df index_cols value_cols agg_choice)), "")

/-! ## Payload serializer and analysis engine (`src/diligence/insights.py`) -/

/-- Python `str.strip` whitespace test (ASCII whitespace plus the
non-breaking space). -/
def isSpaceChar (c : Char) : Bool := c.isWhitespace || c = nbsp

/-- Python `str.strip`. -/
def stripChars (cs : List Char) : List Char :=
  ((cs.dropWhile isSpaceChar).reverse.dropWhile isSpaceChar).reverse

/-- `" | ".join(map(str, col)).strip()` (insights.py line 31) for a
hierarchical column label; a flat label is kept as is. -/
def flatName (multi : Bool) (label : List String) : String :=
  if multi then String.mk (stripChars (String.intercalate " | " label).data)
  else label.headD ""

/-- Per-column summary entry of the payload (insights.py lines 40-46). -/
structure ColStats where
  csum : ℚ
  cmean : ℚ
  cmin : ℚ
  cmax : ℚ
  nonNull : ℕ
deriving DecidableEq, Repr, Inhabited

/-- The analysis payload (insights.py lines 48-53). -/
structure Payload where
  shapeRows : ℕ
  shapeCols : ℕ
  columns : List String
  numericSummary : List (String × ColStats)
  rows : List (List (String × Cell))
deriving DecidableEq, Repr

/-- `reset_index`: demote the row key into ordinary columns named after the
index levels, and turn each pivot cell into a record value. -/
def resetRow (pvt : Pivot) (r : List String × List (Option ℚ)) : List (String × Cell) :=
  pvt.idxNames.zip (r.1.map Cell.text) ++
    (pvt.colLabels.map (flatName pvt.multiCols)).zip
      (r.2.map (fun c => c.elim Cell.missing Cell.num))

/-- Summary statistics of one metric column over the (truncated) rows
(insights.py lines 39-46): `sum` is the skip-missing sum (0 when empty);
`mean`, `min`, `max` fall back to 0.0 when every value is missing;
`non_null` counts the non-missing values. -/
def statsOfColumn (s : List (Option ℚ)) : ColStats :=
  let v := s.filterMap id
  { csum := v.sum
    cmean := if v.isEmpty then 0 else v.sum / v.length
    cmin := if v.isEmpty then 0 else v.foldr min (v.headD 0)
    cmax := if v.isEmpty then 0 else v.foldr max (v.headD 0)
    nonNull := v.length }

/-- `pivot_to_payload` (insights.py lines 27-53): flatten hierarchical
column labels with `" | ".join(...).strip()`, `reset_index`, truncate to the
first `max_rows` rows, then compute the per-column numeric summary over the
truncated rows.  The index columns hold strings (object dtype), so the
numeric columns are exactly the metric columns. -/
def pivot_to_payload (pvt : Pivot) (max_rows : ℕ) : Payload :=
  let names := pvt.colLabels.map (flatName pvt.multiCols)
  let truncated := if max_rows < pvt.rows.length then pvt.rows.take max_rows else pvt.rows
  let cols := pvt.idxNames ++ names
  { shapeRows := truncated.length
    shapeCols := cols.length
    columns := cols
    numericSummary :=
      (List.range names.length).map (fun j =>
        (names.getD j "", statsOfColumn (truncated.map (fun r => r.2.getD j none))))
    rows := truncated.map (resetRow pvt) }

/-- `dict.get` on a payload row (`None` for an absent key). -/
def lookupRow (r : List (String × Cell)) (name : String) : Option Cell :=
  (r.find? (fun p => p.1 = name)).map (fun p => p.2)

/-- Element-wise `pd.to_numeric(..., errors="coerce")` (insights.py
`_numeric`): numbers pass through, strings are parsed as plain decimals,
anything else is missing. -/
def cellNum : Cell → Option ℚ
  | .num q => some q
  | .text s => parseNum s.data
  | .missing => none

/-- `col_series` (insights.py lines 121-125) for a present column name. -/
def colSeries (p : Payload) (name : String) : List (Option ℚ) :=
  p.rows.map (fun r => (lookupRow r name).bind cellNum)

/-- Python regex word character (`\w`, restricted to ASCII, which covers
every keyword `_find_col` is called with). -/
def isWordChar (c : Char) : Bool := c.isAlphanum || c = '_'

/-- Case-insensitive whole-word occurrence of `cand` inside `col`,
modelling `re.search(rf"\b{re.escape(cand)}\b", col, re.I)` for candidates
that begin and end with word characters (all of the fixed keyword lists
do). -/
def wordSearch (cand col : String) : Bool :=
  let pat := cand.data.map Char.toLower
  let txt := col.data.map Char.toLower
  (List.range (txt.length + 1)).any (fun i =>
    ((txt.drop i).take pat.length == pat) &&
      (decide (i = 0) || !isWordChar (txt.getD (i - 1) ' ')) &&
      (decide (txt.length ≤ i + pat.length) || !isWordChar (txt.getD (i + pat.length) ' ')))

/-- `_find_col` (insights.py lines 68-74): the first column whose name
contains one of the candidate keywords as a whole word. -/
def findCol (cols : List String) (cands : List String) : Option String :=
  cols.find? (fun c => cands.any (fun cand => wordSearch cand c))

/-- The inferred-metric map (insights.py lines 83-114). -/
structure Metrics where
  impressions : Option String
  clicks : Option String
  ctr : Option String
  spend : Option String
  cpc : Option String
  cpm : Option String
  primary : Option String
deriving DecidableEq, Repr

/-- Does a cell satisfy Python's `isinstance(v, (int, float))` (NaN is a
float, so the missing marker qualifies)? -/
def isPyNumber : Cell → Bool
  | .num _ => true
  | .missing => true
  | .text _ => false

/-- `_infer_metrics_from_payload` (insights.py lines 83-114). -/
def _infer_metrics_from_payload (p : Payload) : Metrics :=
  let cols := p.columns
  let col_impr := findCol cols ["Impressions", "Impr", "Imps"]
  let col_clicks := findCol cols ["Clicks", "Click", "Clics"]
  let col_ctr := findCol cols ["CTR", "Click-Through Rate"]
  let col_spend := findCol cols ["Spend", "Cost", "Dépense", "Budget"]
  let col_cpc := findCol cols ["CPC"]
  let col_cpm := findCol cols ["CPM"]
  let primary0 := [col_spend, col_clicks, col_impr, col_ctr, col_cpc, col_cpm].foldl
    (fun acc c => match acc with | some _ => acc | none => c) none
  let primary := match primary0 with
    | some c => some c
    | none => cols.find? (fun c => p.rows.any (fun r =>
        match lookupRow r c with
        | some v => isPyNumber v
        | none => false))
  ⟨col_impr, col_clicks, col_ctr, col_spend, col_cpc, col_cpm, primary⟩

/-- `np.nansum` over a series. -/
def nanSum (s : List (Option ℚ)) : ℚ := (s.filterMap id).sum

/-- The weighted click-rate of `_analyze_payload` (insights.py lines
134-143): requires both columns to be inferred and the impressions series to
hold at least one non-missing value; `sum(clicks)/sum(impressions)` when the
impressions sum is positive, `None` otherwise. -/
def ctr_weighted (p : Payload) : Option ℚ :=
  let m := _infer_metrics_from_payload p
  match m.impressions, m.clicks with
  | some ci, some cc =>
    let s_impr := colSeries p ci
    if s_impr.any Option.isSome then
      let sum_impr := nanSum s_impr
      let sum_clicks := nanSum (colSeries p cc)
      if 0 < sum_impr then some (sum_clicks / sum_impr) else none
    else none
  | _, _ => none

/-- The per-row implied ratio `s_clicks / s_impr.replace({0: np.nan})`
(insights.py line 186): missing whenever either operand is missing or the
impression count is zero. -/
def impliedRat (s_clicks s_impr : List (Option ℚ)) : List (Option ℚ) :=
  List.zipWith (fun c i =>
    match c, i with
    | some cv, some iv => if iv = 0 then none else some (cv / iv)
    | _, _ => none) s_clicks s_impr

/-- `np.nanmean(np.abs(ratio - s_ctr))` (insights.py line 189): mean of the
element-wise absolute differences over the rows where both sides are
non-missing; `none` models the all-missing NaN result. -/
def meanAbsDiff (p : Payload) : Option ℚ :=
  let m := _infer_metrics_from_payload p
  match m.ctr, m.clicks, m.impressions with
  | some cctr, some cc, some ci =>
    let diffs := List.zipWith (fun r c =>
        match r, c with
        | some rv, some cv => some |rv - cv|
        | _, _ => none)
      (impliedRat (colSeries p cc) (colSeries p ci)) (colSeries p cctr)
    let v := diffs.filterMap id
    if v.isEmpty then none else some (v.sum / v.length)
  | _, _, _ => none

/-- Python truthiness of an optional column name. -/
def optTruthy : Option String → Bool
  | some s => !(s == "")
  | none => false

/-- The data-quality flag `ctr_vs_ratio_warning` (insights.py lines
184-193): only computed when the click-rate column and the clicks and
impressions pair are all inferred (and truthy); set exactly when the mean
absolute difference exists and exceeds 0.02; the all-missing NaN mean
leaves it unset. -/
def ctr_vs_ratio_warning (p : Payload) : Bool :=
  let m := _infer_metrics_from_payload p
  if optTruthy m.ctr && optTruthy m.clicks && optTruthy m.impressions then
    match meanAbsDiff p with
    | some d => decide ((1 : ℚ)/50 < d)
    | none => false
  else false

/-- Sort key of `build_ranked` (insights.py lines 175-177): a number maps to
itself (NaN, a float, maps to the incomparable NaN key), everything else to
`-inf`. -/
inductive RankKey where
  | val (q : ℚ)
  | ninf
  | nan
deriving DecidableEq, Repr

/-- `float` comparison on rank keys (`NaN` compares false against
everything). -/
def rkLt : RankKey → RankKey → Bool
  | .ninf, .val _ => true
  | .val a, .val b => decide (a < b)
  | _, _ => false

/-- `getv` (insights.py lines 175-177). -/
def getv (key_col : String) (r : List (String × Cell)) : RankKey :=
  match lookupRow r key_col with
  | some (.num q) => .val q
  | some .missing => .nan
  | _ => .ninf

/-- Top/bottom ranking result. -/
structure Ranking where
  top : List (List (String × Cell))
  bottom : List (List (String × Cell))
deriving DecidableEq, Repr

/-- `build_ranked` (insights.py lines 172-179): stable descending sort of
the payload rows by the primary-metric key, then the first `topn` rows and
the reversed last `topn` rows; no ranking when there is no key column. -/
def build_ranked (rows : List (List (String × Cell))) (key_col : Option String)
    (topn : ℕ) : Option Ranking :=
  match key_col with
  | none => none
  | some kc =>
    let ranked := sortLe (fun x y => !(rkLt (getv kc x) (getv kc y))) rows
    some ⟨ranked.take topn, (ranked.drop (ranked.length - topn)).reverse⟩

/-- The ranking computed by `_analyze_payload` (insights.py line 181). -/
def ranking_on_primary (p : Payload) : Option Ranking :=
  build_ranked p.rows (_infer_metrics_from_payload p).primary 5

/-- `np.nanpercentile(vals, p)` with the default linear interpolation, on a
non-empty list of already non-missing values (insights.py line 166): sort
ascending, take the virtual index `p/100 * (n-1)`, and interpolate linearly
between the two neighbouring order statistics. -/
def percentileQ (v : List ℚ) (p : ℚ) : ℚ :=
  let s := sortLe (fun a b => decide (a ≤ b)) v
  let rank : ℚ := p / 100 * ((s.length : ℚ) - 1)
  let lo : ℕ := (⌊rank⌋).toNat
  let a := s.getD lo 0
  a + (rank - (lo : ℚ)) * (s.getD (lo + 1) a - a)

/-- The square of `np.nanstd(vals, ddof=0)` (insights.py line 165): the mean
squared deviation from the mean, over a non-empty list of values.  The
standard deviation itself is the square root of this rational — irrational
in general — so the exact development carries the square. -/
def varPopQ (v : List ℚ) : ℚ :=
  let m := v.sum / (v.length : ℚ)
  (v.map (fun x => (x - m) ^ 2)).sum / (v.length : ℚ)

/-- The dispersion statistics of `_analyze_payload` (insights.py lines
164-169): squared population standard deviation, interquartile range, and
the extremes of the value sample. -/
structure Dispersion where
  varPop : ℚ
  iqr : ℚ
  dmin : ℚ
  dmax : ℚ
deriving DecidableEq, Repr

/-- The dispersion statistics of a non-empty value sample. -/
def dispersionOf (vals : List ℚ) : Dispersion :=
  { varPop := varPopQ vals
    iqr := percentileQ vals 75 - percentileQ vals 25
    dmin := vals.foldr min (vals.headD 0)
    dmax := vals.foldr max (vals.headD 0) }

/-- `dispersion_on_primary` (insights.py lines 158-169 and 201): computed
only when a (truthy) primary metric was inferred and its series holds at
least one non-missing value, over the non-missing primary values of every
payload row; `none` models the empty `dispersion` dict. -/
def dispersion_on_primary (p : Payload) : Option Dispersion :=
  match (_infer_metrics_from_payload p).primary with
  | none => none
  | some kc =>
    if kc = "" then none
    else if (colSeries p kc).any Option.isSome then
      some (dispersionOf ((colSeries p kc).filterMap id))
    else none

/-! ## Fallback narrative generator (`insights.py` lines 271-307) -/

/-- Insert thousands separators into a most-significant-first digit list. -/
def groupThousands (ds : List Char) : List Char :=
  ((ds.reverse.enum.map (fun ic =>
    if ic.1 ≠ 0 ∧ ic.1 % 3 = 0 then [',', ic.2] else [ic.2])).flatten).reverse

/-- `f"{x:,.2f}"`: two decimal places with thousands separators.  Ties are
rounded half-up on the exact rational; Python rounds the shortest-decimal
reading of the binary float half-to-even, a difference immaterial to the
properties proved here (branch selection and non-emptiness). -/
def format2f (q : ℚ) : String :=
  let c : ℕ := (⌊|q| * 100 + 1/2⌋).toNat
  let whole := natDigits (c / 100)
  let whole := if whole.isEmpty then ['0'] else whole
  (if q < 0 then "-" else "") ++ String.mk (groupThousands whole) ++ "." ++
    String.mk [digitChar (c % 100 / 10), digitChar (c % 10)]

/-- `str(value)` of a payload cell, for display in the fallback text. -/
def cellStr : Cell → String
  | .text s => s
  | .num q => String.mk (renderQ q)
  | .missing => "nan"

/-- `"\n".join(lines)`. -/
def joinLines : List String → String
  | [] => ""
  | [x] => x
  | x :: y :: xs => x ++ "\n" ++ joinLines (y :: xs)

/-- `fallback_comment_on_pivot` (insights.py lines 271-307): a pure function
of the payload; short-circuits on empty rows and on an empty numeric
summary, otherwise builds the TL;DR line (with the whole line run through
`.replace(",", " ").replace(".", ",")`), up to three top rows by the first
numeric metric, and a fixed recommendation line. -/
def fallback_comment_on_pivot (p : Payload) : String :=
  if p.rows.isEmpty then "Aucune donnée dans le pivot."
  else if p.numericSummary.isEmpty then
    "**TL;DR** — Pivot non numérique : vérifie les métriques choisies."
  else
    let first := (p.numericSummary.headD ("", default)).1
    let st := (p.numericSummary.headD ("", default)).2
    let tldr := (("**TL;DR** — La métrique « " ++ first ++ " » totalise " ++
        format2f st.csum ++ " (moyenne " ++ format2f st.cmean ++ ").").replace "," " ").replace
        "." ","
    let numeric_names := p.numericSummary.map (fun e => e.1)
    let keyOf := fun r => match lookupRow r first with
      | some (.num q) => RankKey.val q
      | some .missing => RankKey.nan
      | _ => RankKey.ninf
    let top_rows := (sortLe (fun x y => !(rkLt (keyOf x) (keyOf y)))
      (p.rows.filter (fun r => match lookupRow r first with
        | some v => isPyNumber v
        | none => false))).take 3
    let lines := tldr ::
      ((if top_rows.isEmpty then [] else
        "Top lignes (selon la première métrique numérique) :" ::
          top_rows.map (fun r =>
            let label := (String.intercalate " | "
              ((r.filter (fun kv => kv.1 ∉ numeric_names)).map (fun kv => cellStr kv.2))).take 120
            "- " ++ label ++ " → " ++ first ++ "=" ++
              (match lookupRow r first with
               | some v => cellStr v
               | none => "None"))) ++
      ["Recos : approfondir les segments en tête, vérifier les extrêmes, et tester des variantes sur les segments sous-performants."])
    joinLines lines

/-! ## Concrete inputs used by the claim theorems -/

/-- The spec's two-row example payload: `{Impressions=1000, Clicks=10}`,
`{Impressions=100, Clicks=5}`. -/
def exampleTwoRows : Payload :=
  { shapeRows := 2, shapeCols := 2, columns := ["Impressions", "Clicks"],
    numericSummary := [],
    rows := [[("Impressions", .num 1000), ("Clicks", .num 10)],
             [("Impressions", .num 100), ("Clicks", .num 5)]] }

/-- A payload with a stated click-rate column whose mean absolute gap to the
implied ratio is a given value `g` on the second row (first row agrees
exactly, so the mean gap is `g / 2`). -/
def qualityPayload (g : ℚ) : Payload :=
  { shapeRows := 2, shapeCols := 3, columns := ["CTR", "Clicks", "Impressions"],
    numericSummary := [],
    rows := [[("CTR", .num (1/100)), ("Clicks", .num 1), ("Impressions", .num 100)],
             [("CTR", .num (2/100 + g)), ("Clicks", .num 2), ("Impressions", .num 100)]] }

/-- A two-column hierarchical-label pivot whose second label level carries a
trailing space, exposing the `.strip()` in `pivot_to_payload`. -/
def c8pivot : Pivot :=
  { idxNames := ["g"], colLabels := [["A", "B "]], multiCols := true,
    rows := [(["x"], [some 1])] }

/-- A two-row pivot used to exercise prefix truncation and the all-missing
mean fallback. -/
def c8wit : Pivot :=
  { idxNames := ["g"], colLabels := [["V"]], multiCols := false,
    rows := [(["x"], [some 1]), (["y"], [some 2])] }

/-- Distinct short row keys for the large pivot. -/
def bigKey (i : ℕ) : String := String.mk ('r' :: natDigits i)

/-- A pivot with 1000 body rows followed by its synthetic Total row: one row
more than the serializer's default `max_rows`, so the trailing Total row is
truncated away. -/
def c10big : Pivot :=
  { idxNames := ["k"], colLabels := [["V"]], multiCols := false,
    rows := (List.range 1000).map (fun i => ([bigKey i], [some 1])) ++ [(["Total"], [some 5])] }

/-- A small pivot whose Total row strictly dominates the body row on the
`Spend` metric. -/
def c10small : Pivot :=
  { idxNames := ["k"], colLabels := [["Spend"]], multiCols := false,
    rows := [(["x"], [some 3]), (["Total"], [some 13])] }

/-! ## Helper lemmas -/

theorem joinLines_cons₂ (x y : String) (ys : List String) :
    joinLines (x :: y :: ys) = x ++ "\n" ++ joinLines (y :: ys) := rfl

theorem append_newline_ne (a b : String) : a ++ "\n" ++ b ≠ "" := by
  intro h
  have hl := congrArg String.length h
  simp [String.length_append] at hl
  exact absurd hl.1.2 (by decide)

theorem joinLines_cons_ne (x : String) (l : List String) (h : l ≠ []) :
    joinLines (x :: l) ≠ "" := by
  cases l with
  | nil => exact absurd rfl h
  | cons y ys => exact append_newline_ne x (joinLines (y :: ys))

/-! ## Claims -/

/-- C2 (code_bug evaluation): the spec says a pivot with three row-group
levels gets only the plain Total row, but `build_pivot` enters the subtotal
branch for any `nlevels >= 2` (pivoting.py lines 58 and 7) and the first
2-tuple subtotal key is then paired with three index names at
`MultiIndex.from_tuples` (line 13), so the call raises a `ValueError`
instead of returning a pivot. -/
theorem c2_three_level_subtotals_raise :
    build_pivot [⟨["a", "b", "c"], [.num 1]⟩] ["A", "B", "C"] [] ["V"] .agg_sum
      = .error "Length of names must match number of levels in MultiIndex." := by
  with_unfolding_all rfl

/-- C4: `build_pivot` returns a null pivot and a non-empty user-facing
message (without raising) when both grouping lists are empty or when the
metric list is empty, and whenever it returns a pivot the accompanying
message is empty (pivoting.py lines 29-33 and 68-69). -/
theorem c4_validation_and_success_message
    (df : List DFRow) (index_cols columns_cols value_cols : List String) (agg : Agg) :
    (index_cols = [] → columns_cols = [] →
      ∃ m, build_pivot df index_cols columns_cols value_cols agg = .ok (none, m) ∧ m ≠ "") ∧
    (value_cols = [] →
      ∃ m, build_pivot df index_cols columns_cols value_cols agg = .ok (none, m) ∧ m ≠ "") ∧
    (∀ pvt m, build_pivot df index_cols columns_cols value_cols agg = .ok (some pvt, m) →
      m = "") := by
  refine ⟨?_, ?_, ?_⟩
  · intro h1 h2
    subst h1; subst h2
    exact ⟨"Choisis au moins **une** colonne pour *Lignes* **ou** *Colonnes*.",
      by simp [build_pivot], by decide⟩
  · intro hv
    subst hv
    by_cases hc : index_cols = [] ∧ columns_cols = []
    · exact ⟨"Choisis au moins **une** colonne pour *Lignes* **ou** *Colonnes*.",
        by simp [build_pivot, hc.1, hc.2], by decide⟩
    · refine ⟨"Choisis au moins **une** métrique dans *Valeurs*.", ?_, by decide⟩
      unfold build_pivot
      rw [if_neg hc]
      simp
  · intro pvt m h
    unfold build_pivot at h
    split_ifs at h with h1 h2 h3
    · simp at h
    · simp at h
    · cases hx : add_row_subtotals_and_total (pivotBase df index_cols value_cols agg) with
      | error e => rw [hx] at h; simp [Except.map] at h
      | ok p => rw [hx] at h; simp [Except.map] at h; exact h.2.symm
    · simp at h
      exact h.2.symm

/-- C4 witness: the three parts of the validation contract at concrete
inputs. -/
theorem c4_witness :
    (∃ m, build_pivot [] [] [] ["V"] .agg_sum = .ok (none, m) ∧ m ≠ "") ∧
    (∃ m, build_pivot [] ["A"] [] [] .agg_sum = .ok (none, m) ∧ m ≠ "") ∧
    ("" : String) = "" :=
  ⟨(c4_validation_and_success_message [] [] [] ["V"] .agg_sum).1 rfl rfl,
   (c4_validation_and_success_message [] ["A"] [] [] .agg_sum).2.1 rfl,
   (c4_validation_and_success_message [⟨["x"], [.num 1]⟩] ["A"] [] ["V"] .agg_sum).2.2
     ⟨["A"], [["V"]], false, [(["x"], [some 1]), (["Total"], [some 1])]⟩ ""
     (by with_unfolding_all rfl)⟩

/-- C9: the fallback narrative generator is a total function of the payload
that returns non-empty text for every payload, returns the literal no-data
message on an empty-rows payload, and still returns non-empty text when
there are rows but no numeric columns (insights.py lines 271-307). -/
theorem c9_fallback_nonempty (p : Payload) :
    fallback_comment_on_pivot p ≠ "" ∧
    (p.rows = [] → fallback_comment_on_pivot p = "Aucune donnée dans le pivot.") ∧
    (p.rows ≠ [] → p.numericSummary = [] → fallback_comment_on_pivot p ≠ "") := by
  by_cases h1 : p.rows = []
  · refine ⟨?_, fun _ => ?_, fun hne _ => absurd h1 hne⟩ <;>
      simp [fallback_comment_on_pivot, h1]
  · have h1' : p.rows.isEmpty = false := by
      cases hr : p.rows with
      | nil => exact absurd hr h1
      | cons a l => simp
    by_cases h2 : p.numericSummary = []
    · refine ⟨?_, fun he => absurd he h1, fun _ _ => ?_⟩ <;>
        simp [fallback_comment_on_pivot, h1', h2]
    · have h2' : p.numericSummary.isEmpty = false := by
        cases hs : p.numericSummary with
        | nil => exact absurd hs h2
        | cons a l => simp
      have key : fallback_comment_on_pivot p ≠ "" := by
        unfold fallback_comment_on_pivot
        rw [if_neg (by simp [h1']), if_neg (by simp [h2'])]
        apply joinLines_cons_ne
        intro hl
        rcases List.append_eq_nil.mp hl with ⟨-, hr⟩
        exact List.cons_ne_nil _ _ hr
      exact ⟨key, fun he => absurd he h1, fun _ _ => key⟩

/-- C9 witness: the literal message on an empty payload, and non-empty
output on a payload with rows but no numeric summary. -/
theorem c9_witness :
    fallback_comment_on_pivot
        { shapeRows := 0, shapeCols := 0, columns := [], numericSummary := [], rows := [] }
      = "Aucune donnée dans le pivot." ∧
    fallback_comment_on_pivot
        { shapeRows := 1, shapeCols := 1, columns := ["k"], numericSummary := [],
          rows := [[("k", .text "x")]] }
      ≠ "" :=
  ⟨(c9_fallback_nonempty _).2.1 rfl,
   (c9_fallback_nonempty _).2.2 (by simp) rfl⟩

theorem any_isSome_of_nanSum_pos (s : List (Option ℚ)) (h : 0 < nanSum s) :
    s.any Option.isSome = true := by
  by_contra hc
  have hall : ∀ x ∈ s, x = none := by
    intro x hx
    cases x with
    | none => rfl
    | some q => exact absurd (List.any_eq_true.mpr ⟨some q, hx, rfl⟩) hc
  have hz : nanSum s = 0 := by
    unfold nanSum
    rw [List.filterMap_eq_nil_iff.mpr (fun x hx => by rw [hall x hx]; rfl)]
    rfl
  rw [hz] at h
  exact lt_irrefl 0 h

/-- C5: the weighted click-rate is `sum(clicks)/sum(impressions)` over the
payload rows whenever both columns are inferred and the impressions sum is
positive; it is `None` when either column is absent or the impressions sum
is zero; and on the spec's two-row example it is `15/1100`, not the simple
mean `0.03` of the per-row rates (insights.py lines 134-143). -/
theorem c5_weighted_click_rate :
    (∀ (p : Payload) (ci cc : String),
        (_infer_metrics_from_payload p).impressions = some ci →
        (_infer_metrics_from_payload p).clicks = some cc →
        0 < nanSum (colSeries p ci) →
        ctr_weighted p = some (nanSum (colSeries p cc) / nanSum (colSeries p ci))) ∧
    (∀ p : Payload,
        (_infer_metrics_from_payload p).impressions = none ∨
          (_infer_metrics_from_payload p).clicks = none →
        ctr_weighted p = none) ∧
    (∀ (p : Payload) (ci : String),
        (_infer_metrics_from_payload p).impressions = some ci →
        nanSum (colSeries p ci) = 0 →
        ctr_weighted p = none) ∧
    (ctr_weighted exampleTwoRows = some (15/1100) ∧ (15 : ℚ)/1100 ≠ (1/100 + 5/100)/2) := by
  refine ⟨?_, ?_, ?_, by with_unfolding_all rfl, by norm_num⟩
  · intro p ci cc h1 h2 h3
    unfold ctr_weighted
    dsimp only
    rw [h1, h2]
    simp only
    rw [if_pos (any_isSome_of_nanSum_pos _ h3), if_pos h3]
  · intro p h
    unfold ctr_weighted
    dsimp only
    rcases h with h | h
    · rw [h]
    · rcases hi : (_infer_metrics_from_payload p).impressions with _ | ci
      · rfl
      · rw [h]
  · intro p ci h1 hsum
    unfold ctr_weighted
    dsimp only
    rw [h1]
    rcases hc : (_infer_metrics_from_payload p).clicks with _ | cc
    · rfl
    · dsimp only
      cases hany : (colSeries p ci).any Option.isSome with
      | false => simp [hany]
      | true =>
        rw [if_pos rfl, if_neg ?_]
        rw [hsum]
        exact lt_irrefl 0

/-- C5 witness: the sum/sum formula at the spec's concrete two-row
payload. -/
theorem c5_witness :
    ctr_weighted exampleTwoRows
      = some (nanSum (colSeries exampleTwoRows "Clicks") /
          nanSum (colSeries exampleTwoRows "Impressions")) := by
  have hs : nanSum (colSeries exampleTwoRows "Impressions") = 1100 := by
    with_unfolding_all rfl
  exact c5_weighted_click_rate.1 exampleTwoRows "Impressions" "Clicks"
    (by with_unfolding_all rfl) (by with_unfolding_all rfl)
    (by rw [hs]; norm_num)

/-- C6: when the click-rate column and the clicks/impressions pair are all
inferred (and truthy), the data-quality flag is set exactly when the mean
absolute difference between the stated click-rate and the per-row implied
ratio (division by a zero impression count treated as missing) exists and
strictly exceeds 0.02 (insights.py lines 183-193). -/
theorem c6_quality_warning_iff (p : Payload)
    (h1 : optTruthy (_infer_metrics_from_payload p).ctr = true)
    (h2 : optTruthy (_infer_metrics_from_payload p).clicks = true)
    (h3 : optTruthy (_infer_metrics_from_payload p).impressions = true) :
    ctr_vs_ratio_warning p = true ↔ ∃ d, meanAbsDiff p = some d ∧ (1 : ℚ)/50 < d := by
  unfold ctr_vs_ratio_warning
  dsimp only
  rw [h1, h2, h3]
  simp only [Bool.and_self, if_true]
  cases hm : meanAbsDiff p with
  | none => simp
  | some d => simp [decide_eq_true_iff]

/-- C6 witness: both sides of the 0.02 boundary at concrete payloads (mean
absolute difference exactly 0.02: no flag; 0.02 + 1/2000: flag). -/
theorem c6_witness :
    ctr_vs_ratio_warning (qualityPayload (4/100)) = false ∧
    ctr_vs_ratio_warning (qualityPayload (4/100 + 1/1000)) = true := by
  constructor
  · have hiff := c6_quality_warning_iff (qualityPayload (4/100))
      (by with_unfolding_all rfl) (by with_unfolding_all rfl) (by with_unfolding_all rfl)
    have hmean : meanAbsDiff (qualityPayload (4/100)) = some (1/50) := by
      with_unfolding_all rfl
    cases hfl : ctr_vs_ratio_warning (qualityPayload (4/100)) with
    | false => rfl
    | true =>
      rcases hiff.mp hfl with ⟨d, hd, hlt⟩
      rw [hmean] at hd
      cases hd
      exact absurd hlt (by norm_num)
  · exact (c6_quality_warning_iff (qualityPayload (4/100 + 1/1000))
      (by with_unfolding_all rfl) (by with_unfolding_all rfl)
      (by with_unfolding_all rfl)).mpr
      ⟨1/50 + 1/2000, by with_unfolding_all rfl, by norm_num⟩

theorem mem_foldl_dedup [DecidableEq α] (l : List α) (acc : List α) (x : α) :
    (x ∈ l.foldl (fun acc x => if x ∈ acc then acc else acc ++ [x]) acc) ↔
      x ∈ acc ∨ x ∈ l := by
  induction l generalizing acc with
  | nil => simp
  | cons a as ih =>
    simp only [List.foldl_cons]
    rw [ih]
    by_cases ha : a ∈ acc
    · rw [if_pos ha]
      constructor
      · rintro (h | h)
        exacts [Or.inl h, Or.inr (List.mem_cons_of_mem _ h)]
      · rintro (h | h)
        · exact Or.inl h
        · rcases List.mem_cons.mp h with rfl | h
          exacts [Or.inl ha, Or.inr h]
    · rw [if_neg ha]
      simp only [List.mem_append, List.mem_singleton, List.mem_cons]
      tauto

theorem mem_dedupFA [DecidableEq α] (l : List α) (x : α) : x ∈ dedupFA l ↔ x ∈ l := by
  unfold dedupFA
  rw [mem_foldl_dedup]
  simp

theorem mem_insertLe (le : α → α → Bool) (x y : α) (l : List α) :
    y ∈ insertLe le x l ↔ y = x ∨ y ∈ l := by
  induction l with
  | nil => simp [insertLe]
  | cons a as ih =>
    unfold insertLe
    by_cases h : le x a = true
    · rw [if_pos h]
      simp [List.mem_cons]
    · rw [if_neg h]
      simp only [List.mem_cons, ih]
      tauto

theorem mem_sortLe (le : α → α → Bool) (l : List α) (y : α) :
    y ∈ sortLe le l ↔ y ∈ l := by
  induction l with
  | nil => simp [sortLe]
  | cons a as ih =>
    show y ∈ insertLe le a (sortLe le as) ↔ _
    rw [mem_insertLe, ih]
    simp [List.mem_cons]

theorem coerceRows_keys (agg : Agg) (df : List DFRow) :
    (coerceRows agg df).map (fun r => r.rkeys) = df.map (fun r => r.rkeys) := by
  unfold coerceRows
  split_ifs
  · rw [List.map_map]
    rfl
  · rfl

theorem pivot_table_key_mem {df : List DFRow} {nv : ℕ} {agg : Agg}
    {r : List String × List (Option ℚ)}
    (h : r ∈ pivot_table df nv agg) : r.1 ∈ df.map (fun x => x.rkeys) := by
  unfold pivot_table at h
  rcases List.mem_map.mp h with ⟨a, ha, heq⟩
  subst heq
  have ha' := List.mem_of_mem_filter ha
  unfold aggregated at ha'
  rcases List.mem_map.mp ha' with ⟨k', hk', heq'⟩
  have hke : k' = a.1 := congrArg Prod.fst heq'
  unfold pivotKeys at hk'
  rw [mem_sortLe, mem_dedupFA, coerceRows_keys] at hk'
  show a.1 ∈ _
  rw [← hke]
  exact hk'

theorem getD_of_length_le {l : List α} {n : ℕ} {d : α} (h : l.length ≤ n) :
    l.getD n d = d := by
  simp [List.getD_eq_getElem?_getD, List.getElem?_eq_none h]

/-- C1: whenever `build_pivot` returns a pivot, that pivot ends with a
synthetic Total row whose cells are the column-wise sums of the non-subtotal
preceding rows, for every aggregator (pivoting.py lines 16-18, 21-22 and
57-66; the subtotal-labelled rows only exist in the two-level branch, and in
the flat branch the filter keeps every row because single-level keys have no
second component). -/
theorem c1_total_is_columnwise_sum (df : List DFRow)
    (index_cols value_cols : List String) (agg : Agg) (pvt : Pivot) (msg : String)
    (hlen : ∀ r ∈ df, r.rkeys.length = index_cols.length)
    (h : build_pivot df index_cols [] value_cols agg = .ok (some pvt, msg)) :
    ∃ body trow, pvt.rows = body ++ [trow] ∧
      trow.1.headD "" = total_label ∧
      trow.2 = (colSums value_cols.length
        (body.filter (fun r => r.1.getD 1 "" ≠ subtotal_label))).map some := by
  unfold build_pivot at h
  split_ifs at h with h1 h2 h3
  · simp at h
  · simp at h
  · cases hx : add_row_subtotals_and_total (pivotBase df index_cols value_cols agg) with
    | error e =>
      rw [hx] at h
      simp [Except.map] at h
    | ok p =>
      rw [hx] at h
      simp only [Except.map, Except.ok.injEq, Prod.mk.injEq, Option.some.injEq] at h
      obtain ⟨rfl, -⟩ := h
      unfold add_row_subtotals_and_total at hx
      rw [if_pos (show 2 ≤ (pivotBase df index_cols value_cols agg).idxNames.length from h3.1)]
        at hx
      split_ifs at hx with hg hall
      simp only [Except.ok.injEq] at hx
      cases hx
      have hn : (pivotBase df index_cols value_cols agg).colLabels.length
          = value_cols.length := by
        simp [pivotBase]
      refine ⟨subtotalRows (pivotBase df index_cols value_cols agg),
        ([total_label, ""],
          (colSums (pivotBase df index_cols value_cols agg).colLabels.length
            ((subtotalRows (pivotBase df index_cols value_cols agg)).filter
              (fun r => r.1.getD 1 "" ≠ subtotal_label))).map some), rfl, rfl, ?_⟩
      rw [hn]
  · have hle : index_cols.length ≤ 1 := by
      rcases Nat.lt_or_ge index_cols.length 2 with hlt | hge
      · omega
      · exact absurd ⟨hge, rfl⟩ h3
    simp only [Except.ok.injEq, Prod.mk.injEq, Option.some.injEq] at h
    obtain ⟨rfl, -⟩ := h
    have hfilter : (pivotBase df index_cols value_cols agg).rows.filter
        (fun r => r.1.getD 1 "" ≠ subtotal_label)
        = (pivotBase df index_cols value_cols agg).rows := by
      rw [List.filter_eq_self]
      intro r hr
      have hr' : r ∈ pivot_table df value_cols.length agg := by
        have hmem : r ∈ (pivot_table df value_cols.length agg).filter
            (fun r => r.2.any Option.isSome) := hr
        exact List.mem_of_mem_filter hmem
      have hkey : r.1 ∈ df.map (fun x => x.rkeys) := pivot_table_key_mem hr'
      rcases List.mem_map.mp hkey with ⟨r0, hr0, hkeq⟩
      have hklen : r.1.length ≤ 1 := by
        rw [← hkeq, hlen r0 hr0]
        exact hle
      have hgd : r.1.getD 1 "" = "" := getD_of_length_le hklen
      have hne : r.1.getD 1 "" ≠ subtotal_label := by
        rw [hgd]
        decide
      exact decide_eq_true hne
    have hn : (pivotBase df index_cols value_cols agg).colLabels.length
        = value_cols.length := by
      simp [pivotBase]
    refine ⟨(pivotBase df index_cols value_cols agg).rows,
      ([total_label],
        (colSums (pivotBase df index_cols value_cols agg).colLabels.length
          (pivotBase df index_cols value_cols agg).rows).map some), rfl, rfl, ?_⟩
    rw [hfilter, hn]

/-- C1 witness: a concrete two-level pivot under the `mean` aggregator whose
Total row sums the member rows only. -/
theorem c1_witness :
    ∃ body trow,
      (Pivot.mk ["A", "B"] [["V"]] false
        [(["a", "u"], [some 2]), (["a", "v"], [some 4]),
         (["a", "Sous-total"], [some 6]), (["b", "u"], [some 10]),
         (["b", "Sous-total"], [some 10]), (["Total", ""], [some 16])]).rows
        = body ++ [trow] ∧
      trow.1.headD "" = total_label ∧
      trow.2 = (colSums ["V"].length
        (body.filter (fun r => r.1.getD 1 "" ≠ subtotal_label))).map some :=
  c1_total_is_columnwise_sum
    [⟨["a", "u"], [.num 2]⟩, ⟨["a", "v"], [.num 4]⟩, ⟨["b", "u"], [.num 10]⟩]
    ["A", "B"] ["V"] .mean _ ""
    (by intro r hr; fin_cases hr <;> rfl)
    (by with_unfolding_all rfl)

/-- C3: the missing-value policy of the pivot aggregation (pivoting.py lines
44-55).  (i) Every aggregator ignores missing values (inserting a missing
observation never changes a group's aggregate); (ii) in particular `mean`
does not treat missing as zero (`mean [1, NaN] = 1`); (iii) every cell of
the pivot body is non-missing and equals the group aggregate with the fill
value 0 substituted when the aggregate is missing; (iv) a group key appears
in the body exactly when it occurs in the data and at least one of its
aggregated cells is non-missing (pandas' internal `dropna(how="all")`). -/
theorem c3_missing_value_policy :
    (∀ (agg : Agg) (cells : List Cell),
        applyAgg agg (.missing :: cells) = applyAgg agg cells) ∧
    applyAgg .mean [.num 1, .missing] = some 1 ∧
    (∀ (df : List DFRow) (nv : ℕ) (agg : Agg) (r : List String × List (Option ℚ)),
        r ∈ pivot_table df nv agg → ∀ j < nv,
          r.2.getD j none
            = some ((applyAgg agg (groupCells (coerceRows agg df) r.1 j)).getD 0)) ∧
    (∀ (df : List DFRow) (nv : ℕ) (agg : Agg) (k : List String),
        (∃ cells, (k, cells) ∈ pivot_table df nv agg) ↔
          (k ∈ pivotKeys (coerceRows agg df) ∧
            ∃ j < nv, applyAgg agg (groupCells (coerceRows agg df) k j) ≠ none)) := by
  refine ⟨?_, by with_unfolding_all rfl, ?_, ?_⟩
  · intro agg cells
    cases agg <;> simp [applyAgg, cellQ]
  · intro df nv agg r hr j hj
    unfold pivot_table at hr
    rcases List.mem_map.mp hr with ⟨a, ha, heq⟩
    subst heq
    have ha' := List.mem_of_mem_filter ha
    unfold aggregated at ha'
    rcases List.mem_map.mp ha' with ⟨k', hk', heq'⟩
    subst heq'
    dsimp only
    rw [List.map_map, List.getD_eq_getElem?_getD, List.getElem?_map,
      List.getElem?_range hj]
    rfl
  · intro df nv agg k
    constructor
    · rintro ⟨cells, hmem⟩
      unfold pivot_table at hmem
      rcases List.mem_map.mp hmem with ⟨a, ha, heq⟩
      rcases List.mem_filter.mp ha with ⟨ha', hpred⟩
      unfold aggregated at ha'
      rcases List.mem_map.mp ha' with ⟨k', hk', heq'⟩
      have hk1 : a.1 = k := congrArg Prod.fst heq
      have hk2 : k' = a.1 := congrArg Prod.fst heq'
      constructor
      · rw [← hk1, ← hk2]
        exact hk'
      · have ha2 : a.2 = (List.range nv).map
            (fun j => applyAgg agg (groupCells (coerceRows agg df) k' j)) :=
          (congrArg Prod.snd heq').symm
        rcases List.any_eq_true.mp hpred with ⟨c, hc, hcs⟩
        rw [ha2] at hc
        rcases List.mem_map.mp hc with ⟨j, hjr, hcj⟩
        refine ⟨j, List.mem_range.mp hjr, ?_⟩
        rw [hk2, hk1] at hcj
        rw [← hcj] at hcs
        exact Option.isSome_iff_ne_none.mp hcs
    · rintro ⟨hk, j, hj, hne⟩
      refine ⟨((List.range nv).map
          (fun j => applyAgg agg (groupCells (coerceRows agg df) k j))).map
          (fun c => some (c.getD 0)), ?_⟩
      unfold pivot_table
      refine List.mem_map.mpr ⟨(k, (List.range nv).map
        (fun j => applyAgg agg (groupCells (coerceRows agg df) k j))), ?_, rfl⟩
      refine List.mem_filter.mpr ⟨?_, ?_⟩
      · unfold aggregated
        exact List.mem_map.mpr ⟨k, hk, rfl⟩
      · refine List.any_eq_true.mpr
          ⟨applyAgg agg (groupCells (coerceRows agg df) k j), ?_, ?_⟩
        · exact List.mem_map.mpr ⟨j, List.mem_range.mpr hj, rfl⟩
        · exact Option.isSome_iff_ne_none.mpr hne

/-- C3 witness: a concrete pivot under `mean` where a half-missing group
aggregates to the mean of its non-missing value and an all-missing group is
dropped from the body. -/
theorem c3_witness :
    (∃ cells, (["x"], cells) ∈ pivot_table
        [⟨["x"], [.missing]⟩, ⟨["x"], [.num 1]⟩, ⟨["y"], [.missing]⟩] 1 .mean) ∧
    (((["x"], [some 1]) : List String × List (Option ℚ)).2.getD 0 none
      = some ((applyAgg .mean (groupCells
          (coerceRows .mean [⟨["x"], [.missing]⟩, ⟨["x"], [.num 1]⟩, ⟨["y"], [.missing]⟩])
          ["x"] 0)).getD 0)) :=
  ⟨(c3_missing_value_policy.2.2.2
      [⟨["x"], [.missing]⟩, ⟨["x"], [.num 1]⟩, ⟨["y"], [.missing]⟩] 1 .mean ["x"]).mpr
      ⟨by with_unfolding_all decide, 0, by decide, by with_unfolding_all decide⟩,
   c3_missing_value_policy.2.2.1
      [⟨["x"], [.missing]⟩, ⟨["x"], [.num 1]⟩, ⟨["y"], [.missing]⟩] 1 .mean
      (["x"], [some 1]) (by with_unfolding_all decide) 0 (by decide)⟩

/-! ## Decimal parser/printer facts (claim C7) -/

theorem isDig_digitChar (d : ℕ) : isDig (digitChar d) = true := by
  unfold digitChar
  split <;> decide

theorem digitVal_digitChar {d : ℕ} (h : d < 10) : digitVal (digitChar d) = d := by
  interval_cases d <;> decide

theorem isDig_spec {c : Char} (h : isDig c = true) :
    c ≠ '.' ∧ c ≠ '-' ∧ c ≠ '+' ∧ c ≠ ' ' ∧ c ≠ nbsp ∧ c ≠ ',' := by
  refine ⟨?_, ?_, ?_, ?_, ?_, ?_⟩ <;>
    · intro he
      rw [he] at h
      exact absurd h (by decide)

theorem digitsLE_eq_digits : ∀ (f n : ℕ), n ≤ f → digitsLE f n = Nat.digits 10 n := by
  intro f
  induction f with
  | zero =>
    intro n hn
    interval_cases n
    rw [Nat.digits_zero]
    rfl
  | succ f ih =>
    intro n hn
    by_cases h0 : n = 0
    · subst h0
      rw [Nat.digits_zero]
      rfl
    · show (if n = 0 then [] else n % 10 :: digitsLE f (n / 10)) = _
      rw [if_neg h0, Nat.digits_def' (by norm_num : 1 < 10) (Nat.pos_of_ne_zero h0),
        ih (n / 10) (by
          have := Nat.div_lt_self (Nat.pos_of_ne_zero h0) (by norm_num : 1 < 10)
          omega)]

theorem mem_natDigits_isDig {c : Char} {n : ℕ} (h : c ∈ natDigits n) : isDig c = true := by
  unfold natDigits at h
  rw [List.mem_reverse] at h
  rcases List.mem_map.mp h with ⟨d, -, rfl⟩
  exact isDig_digitChar d

theorem ofDigits_replicate_zero (b k : ℕ) : Nat.ofDigits b (List.replicate k 0) = 0 := by
  induction k with
  | zero => rfl
  | succ k ih =>
    rw [List.replicate_succ, Nat.ofDigits_cons, ih]
    simp

theorem natVal_natDigits (n : ℕ) : natVal (natDigits n) = n := by
  unfold natVal natDigits
  rw [digitsLE_eq_digits n n le_rfl, List.map_reverse, List.reverse_reverse, List.map_map]
  have hmap : (Nat.digits 10 n).map (digitVal ∘ digitChar) = (Nat.digits 10 n).map id :=
    List.map_congr_left (fun d hd => digitVal_digitChar (Nat.digits_lt_base (by norm_num) hd))
  rw [hmap, List.map_id, Nat.ofDigits_digits]

theorem natVal_pad (k : ℕ) (ds : List Char) :
    natVal (List.replicate k '0' ++ ds) = natVal ds := by
  unfold natVal
  rw [List.map_append, List.reverse_append]
  have hrep : (List.replicate k '0').map digitVal = List.replicate k 0 := by
    rw [List.map_replicate]
    rfl
  rw [hrep, List.reverse_replicate, Nat.ofDigits_append, ofDigits_replicate_zero]
  simp

theorem takeWhile_append_all {p : α → Bool} {l r : List α} (h : ∀ c ∈ l, p c = true) :
    (l ++ r).takeWhile p = l ++ r.takeWhile p := by
  induction l with
  | nil => simp
  | cons a as ih =>
    have ha : p a = true := h a (List.mem_cons_self a as)
    have ih' := ih (fun c hc => h c (List.mem_cons_of_mem a hc))
    simp [List.takeWhile_cons, ha, ih']

theorem dropWhile_append_all {p : α → Bool} {l r : List α} (h : ∀ c ∈ l, p c = true) :
    (l ++ r).dropWhile p = r.dropWhile p := by
  induction l with
  | nil => simp
  | cons a as ih =>
    have ha : p a = true := h a (List.mem_cons_self a as)
    have ih' := ih (fun c hc => h c (List.mem_cons_of_mem a hc))
    simp [List.dropWhile_cons, ha, ih']

theorem stripP_spec : ∀ (f p d : ℕ), d ≤ f → 2 ≤ p →
    p ^ pMultAux f p d * stripPAux f p d = d ∧ (d ≠ 0 → ¬ p ∣ stripPAux f p d) := by
  intro f
  induction f with
  | zero =>
    intro p d hd hp
    interval_cases d
    refine ⟨by simp [pMultAux, stripPAux], fun h0 => absurd rfl h0⟩
  | succ f ih =>
    intro p d hd hp
    simp only [pMultAux, stripPAux]
    split_ifs with hc
    · obtain ⟨-, hd0, hmod⟩ := hc
      have hdvd : p ∣ d := Nat.dvd_of_mod_eq_zero hmod
      have hlt : d / p < d := Nat.div_lt_self (Nat.pos_of_ne_zero hd0) hp
      have hle : d / p ≤ f := by omega
      obtain ⟨h1, h2⟩ := ih p (d / p) hle hp
      constructor
      · have hstep : p ^ (pMultAux f p (d / p) + 1) * stripPAux f p (d / p)
            = p * (p ^ pMultAux f p (d / p) * stripPAux f p (d / p)) := by
          ring
        rw [hstep, h1, Nat.mul_div_cancel' hdvd]
      · intro _
        have hdp0 : d / p ≠ 0 := by
          have hpd : p ≤ d := Nat.le_of_dvd (Nat.pos_of_ne_zero hd0) hdvd
          have hpos := Nat.div_pos hpd (by omega)
          omega
        exact h2 hdp0
    · refine ⟨by simp, fun hd0 hdvd => hc ⟨hp, hd0, ?_⟩⟩
      exact Nat.mod_eq_zero_of_dvd hdvd

theorem pow_pMult_mul_stripP (p d : ℕ) (hp : 2 ≤ p) : p ^ pMult p d * stripP p d = d :=
  (stripP_spec d p d le_rfl hp).1

theorem not_dvd_stripP (p d : ℕ) (hp : 2 ≤ p) (hd : d ≠ 0) : ¬ p ∣ stripP p d :=
  (stripP_spec d p d le_rfl hp).2 hd

theorem stripP_dvd (p d : ℕ) (hp : 2 ≤ p) : stripP p d ∣ d :=
  ⟨p ^ pMult p d, by nth_rewrite 1 [← pow_pMult_mul_stripP p d hp]; ring⟩

theorem stripP_ne_zero (p d : ℕ) (hp : 2 ≤ p) (hd : d ≠ 0) : stripP p d ≠ 0 := by
  intro h0
  apply hd
  rw [← pow_pMult_mul_stripP p d hp, h0, mul_zero]

theorem den_dvd_10pow (d : ℕ) (hd : stripP 5 (stripP 2 d) = 1) :
    d ∣ 10 ^ (pMult 2 d + pMult 5 (stripP 2 d)) := by
  set a := pMult 2 d with ha
  set b := pMult 5 (stripP 2 d) with hb
  have h2 := pow_pMult_mul_stripP 2 d (by norm_num)
  have h5 := pow_pMult_mul_stripP 5 (stripP 2 d) (by norm_num)
  rw [hd, mul_one] at h5
  have hdec : d = 2 ^ a * 5 ^ b := by
    rw [← h2, ← h5]
  have h10 : (10 : ℕ) ^ (a + b) = 2 ^ (a + b) * 5 ^ (a + b) := by
    rw [show (10 : ℕ) = 2 * 5 from rfl, mul_pow]
  rw [h10]
  calc d = 2 ^ a * 5 ^ b := hdec
    _ ∣ 2 ^ (a + b) * 5 ^ (a + b) :=
      mul_dvd_mul (pow_dvd_pow 2 (by omega)) (pow_dvd_pow 5 (by omega))

theorem smooth_of_dvd_pow {d k : ℕ} (h : d ∣ 10 ^ k) : stripP 5 (stripP 2 d) = 1 := by
  have hd0 : d ≠ 0 := by
    intro h0
    rw [h0] at h
    have : (10 : ℕ) ^ k = 0 := Nat.eq_zero_of_zero_dvd h
    exact absurd this (by positivity)
  have hs2 : stripP 2 d ≠ 0 := stripP_ne_zero 2 d (by norm_num) hd0
  have h5 : ¬ 5 ∣ stripP 5 (stripP 2 d) := not_dvd_stripP 5 (stripP 2 d) (by norm_num) hs2
  have h2' : ¬ 2 ∣ stripP 2 d := not_dvd_stripP 2 d (by norm_num) hd0
  have hsdvd : stripP 5 (stripP 2 d) ∣ stripP 2 d := stripP_dvd 5 _ (by norm_num)
  have h2 : ¬ 2 ∣ stripP 5 (stripP 2 d) := fun hdv => h2' (hdv.trans hsdvd)
  have hs10 : stripP 5 (stripP 2 d) ∣ 10 ^ k :=
    (hsdvd.trans (stripP_dvd 2 d (by norm_num))).trans h
  have hcop2 : Nat.Coprime (stripP 5 (stripP 2 d)) 2 :=
    ((Nat.Prime.coprime_iff_not_dvd Nat.prime_two).mpr h2).symm
  have hcop5 : Nat.Coprime (stripP 5 (stripP 2 d)) 5 :=
    ((Nat.Prime.coprime_iff_not_dvd (by norm_num : Nat.Prime 5)).mpr h5).symm
  have hcop : Nat.Coprime (stripP 5 (stripP 2 d)) (10 ^ k) := by
    have h10 : Nat.Coprime (stripP 5 (stripP 2 d)) 10 := by
      rw [show (10 : ℕ) = 2 * 5 from rfl]
      exact Nat.Coprime.mul_right hcop2 hcop5
    exact h10.pow_right k
  exact Nat.Coprime.eq_one_of_dvd hcop hs10

theorem decDen_div_pow (m k : ℕ) : decDen ((m : ℚ) / 10 ^ k) := by
  unfold decDen
  refine smooth_of_dvd_pow (k := k) ?_
  have h := Rat.den_dvd (m : ℤ) ((10 : ℤ) ^ k)
  rw [Rat.divInt_eq_div] at h
  have hterm : ((m : ℤ) : ℚ) / ((10 : ℤ) ^ k : ℤ) = (m : ℚ) / 10 ^ k := by
    push_cast
    ring
  rw [hterm] at h
  have hcast : ((10 : ℤ) ^ k) = ((10 ^ k : ℕ) : ℤ) := by push_cast; ring
  rw [hcast] at h
  exact_mod_cast h

theorem decDen_natCast (m : ℕ) : decDen (m : ℚ) := by
  unfold decDen
  rw [Rat.den_natCast]
  decide

theorem decDen_neg {q : ℚ} (h : decDen q) : decDen (-q) := by
  unfold decDen at *
  rw [Rat.den_neg_eq_den]
  exact h

theorem parseUnsigned_decDen {cs : List Char} {q : ℚ} (h : parseUnsigned cs = some q) :
    decDen q := by
  unfold parseUnsigned at h
  cases hdw : cs.dropWhile (fun c => c ≠ '.') with
  | nil =>
    rw [hdw] at h
    dsimp only at h
    split_ifs at h
    simp only [Option.some.injEq] at h
    subst h
    exact decDen_natCast _
  | cons c0 frac =>
    rw [hdw] at h
    dsimp only at h
    split_ifs at h
    simp only [Option.some.injEq] at h
    subst h
    exact decDen_div_pow _ _

theorem parseNum_decDen {cs : List Char} {q : ℚ} (h : parseNum cs = some q) : decDen q := by
  unfold parseNum at h
  cases cs with
  | nil => simp at h
  | cons c rest =>
    dsimp only at h
    split_ifs at h with h1 h2
    · cases hpu : parseUnsigned rest with
      | none =>
        rw [hpu] at h
        simp at h
      | some q' =>
        rw [hpu] at h
        simp only [Option.map_some', Option.some.injEq] at h
        subst h
        exact decDen_neg (parseUnsigned_decDen hpu)
    · exact parseUnsigned_decDen h
    · exact parseUnsigned_decDen h

theorem pad_digits_all (n k : ℕ) :
    ∀ x ∈ List.replicate k '0' ++ natDigits n, isDig x = true := by
  intro x hx
  rcases List.mem_append.mp hx with hx | hx
  · rw [List.eq_of_mem_replicate hx]
    decide
  · exact mem_natDigits_isDig hx

theorem renderCore_mem {n e : ℕ} {c : Char} (h : c ∈ renderCore n e) :
    isDig c = true ∨ c = '.' := by
  unfold renderCore at h
  rcases List.mem_append.mp h with hc | hc
  · exact Or.inl (pad_digits_all n _ _ (List.mem_of_mem_take hc))
  · by_cases he : e = 0
    · rw [if_pos he] at hc
      exact absurd hc (List.not_mem_nil c)
    · rw [if_neg he] at hc
      rcases List.mem_cons.mp hc with rfl | hc
      · exact Or.inr rfl
      · exact Or.inl (pad_digits_all n _ _ (List.mem_of_mem_drop hc))

theorem renderCore_head_digit (n e : ℕ) :
    ∃ c rest, renderCore n e = c :: rest ∧ isDig c = true := by
  unfold renderCore
  set ds := List.replicate (e + 1 - (natDigits n).length) '0' ++ natDigits n with hds
  have hlen : e + 1 ≤ ds.length := by
    rw [hds, List.length_append, List.length_replicate]
    omega
  have htlen : (ds.take (ds.length - e)).length = ds.length - e := by
    rw [List.length_take]
    omega
  have hton : ds.take (ds.length - e) ≠ [] := by
    intro hnil
    rw [hnil] at htlen
    simp at htlen
    omega
  obtain ⟨c, rest', hcr⟩ := List.exists_cons_of_ne_nil hton
  refine ⟨c, rest' ++ (if e = 0 then [] else '.' :: ds.drop (ds.length - e)), ?_, ?_⟩
  · rw [hcr]
    simp [List.cons_append]
  · have hmem : c ∈ ds.take (ds.length - e) := by
      rw [hcr]
      exact List.mem_cons_self _ _
    exact pad_digits_all n _ _ (List.mem_of_mem_take hmem)

theorem parseUnsigned_renderCore (n e : ℕ) :
    parseUnsigned (renderCore n e) = some ((n : ℚ) / 10 ^ e) := by
  unfold renderCore
  set ds := List.replicate (e + 1 - (natDigits n).length) '0' ++ natDigits n with hds
  have hall : ∀ x ∈ ds, isDig x = true := by
    rw [hds]
    exact pad_digits_all n _
  have hndot : ∀ x ∈ ds, (fun c => decide (c ≠ '.')) x = true := by
    intro x hx
    simp [(isDig_spec (hall x hx)).1]
  have hlen : e + 1 ≤ ds.length := by
    rw [hds, List.length_append, List.length_replicate]
    omega
  have hvds : natVal ds = n := by
    rw [hds, natVal_pad, natVal_natDigits]
  by_cases he : e = 0
  · subst he
    rw [if_pos rfl, List.append_nil, Nat.sub_zero, List.take_length]
    unfold parseUnsigned
    have htw : ds.takeWhile (fun c => c ≠ '.') = ds := by
      conv_lhs => rw [← List.append_nil ds]
      rw [takeWhile_append_all hndot]
      simp
    have hdw : ds.dropWhile (fun c => c ≠ '.') = [] := by
      conv_lhs => rw [← List.append_nil ds]
      rw [dropWhile_append_all hndot]
      simp
    rw [hdw]
    dsimp only
    rw [htw]
    have hne : ds.isEmpty = false := by
      cases hd0 : ds with
      | nil => rw [hd0] at hlen; simp at hlen
      | cons a l => simp
    have hald : ds.all isDig = true := List.all_eq_true.mpr hall
    rw [hne, hald]
    simp [hvds]
  · rw [if_neg he]
    have hIntAll : ∀ x ∈ ds.take (ds.length - e), (fun c => decide (c ≠ '.')) x = true :=
      fun x hx => hndot x (List.mem_of_mem_take hx)
    unfold parseUnsigned
    rw [takeWhile_append_all hIntAll, dropWhile_append_all hIntAll]
    have htw2 : (('.' :: ds.drop (ds.length - e)).takeWhile fun c => decide (c ≠ '.')) = [] := by
      simp [List.takeWhile_cons]
    have hdw2 : (('.' :: ds.drop (ds.length - e)).dropWhile fun c => decide (c ≠ '.'))
        = '.' :: ds.drop (ds.length - e) := by
      simp [List.dropWhile_cons]
    rw [htw2, hdw2, List.append_nil]
    dsimp only
    have htlen : (ds.take (ds.length - e)).length = ds.length - e := by
      rw [List.length_take]
      omega
    have hne : (ds.take (ds.length - e)).isEmpty = false := by
      cases hd0 : ds.take (ds.length - e) with
      | nil => rw [hd0] at htlen; simp at htlen; omega
      | cons a l => simp
    have hint : (ds.take (ds.length - e)).all isDig = true :=
      List.all_eq_true.mpr (fun x hx => hall x (List.mem_of_mem_take hx))
    have hfrac : (ds.drop (ds.length - e)).all isDig = true :=
      List.all_eq_true.mpr (fun x hx => hall x (List.mem_of_mem_drop hx))
    rw [hne, hint, hfrac]
    simp only [Bool.not_false, Bool.true_or, Bool.and_self, Bool.true_and, if_true]
    rw [List.take_append_drop, hvds, List.length_drop]
    have : ds.length - (ds.length - e) = e := by omega
    rw [this]

theorem parseNum_renderQ {q : ℚ} (hd : decDen q) : parseNum (renderQ q) = some q := by
  unfold renderQ
  rw [if_pos hd]
  have hdvd : q.den ∣ 10 ^ (pMult 2 q.den + pMult 5 (stripP 2 q.den)) := den_dvd_10pow q.den hd
  have hdt : q.den * (10 ^ (pMult 2 q.den + pMult 5 (stripP 2 q.den)) / q.den)
      = 10 ^ (pMult 2 q.den + pMult 5 (stripP 2 q.den)) := Nat.mul_div_cancel' hdvd
  have ht0 : (10 ^ (pMult 2 q.den + pMult 5 (stripP 2 q.den)) / q.den) ≠ 0 := by
    intro h0
    rw [h0, mul_zero] at hdt
    exact absurd hdt.symm (by positivity)
  have hval : ((q.num.natAbs * (10 ^ (pMult 2 q.den + pMult 5 (stripP 2 q.den)) / q.den) : ℕ) : ℚ)
      / 10 ^ (pMult 2 q.den + pMult 5 (stripP 2 q.den)) = (q.num.natAbs : ℚ) / q.den := by
    have h10 : ((10 : ℚ) ^ (pMult 2 q.den + pMult 5 (stripP 2 q.den))) ≠ 0 := by positivity
    have hden : ((q.den : ℚ)) ≠ 0 := Nat.cast_ne_zero.mpr q.den_nz
    have hdtQ : (q.den : ℚ) * (10 ^ (pMult 2 q.den + pMult 5 (stripP 2 q.den)) / q.den : ℕ)
        = 10 ^ (pMult 2 q.den + pMult 5 (stripP 2 q.den)) := by
      exact_mod_cast hdt
    rw [div_eq_div_iff h10 hden]
    push_cast
    rw [← hdtQ]
    ring
  have hpu := parseUnsigned_renderCore
    (q.num.natAbs * (10 ^ (pMult 2 q.den + pMult 5 (stripP 2 q.den)) / q.den))
    (pMult 2 q.den + pMult 5 (stripP 2 q.den))
  by_cases hneg : q < 0
  · rw [if_pos hneg]
    simp only [List.cons_append, List.nil_append]
    unfold parseNum
    dsimp only
    rw [if_pos rfl, hpu]
    simp only [Option.map_some', Option.some.injEq]
    rw [hval]
    have hle : q.num ≤ 0 := by
      rcases le_or_lt q.num 0 with hle | hgt
      · exact hle
      · exact absurd (Rat.num_nonneg.mp (le_of_lt hgt)) (not_le.mpr hneg)
    have hnum : (q.num.natAbs : ℚ) = -(q.num : ℚ) := by
      have hz : (q.num.natAbs : ℤ) = -q.num := Int.ofNat_natAbs_of_nonpos hle
      calc (q.num.natAbs : ℚ) = ((q.num.natAbs : ℤ) : ℚ) := (Int.cast_natCast _).symm
        _ = ((-q.num : ℤ) : ℚ) := by rw [hz]
        _ = -(q.num : ℚ) := by push_cast; ring
    rw [hnum, neg_div, neg_neg]
    exact Rat.num_div_den q
  · rw [if_neg hneg, List.nil_append]
    obtain ⟨c, rest, hcr, hdig⟩ := renderCore_head_digit
      (q.num.natAbs * (10 ^ (pMult 2 q.den + pMult 5 (stripP 2 q.den)) / q.den))
      (pMult 2 q.den + pMult 5 (stripP 2 q.den))
    rw [hcr]
    unfold parseNum
    dsimp only
    rw [if_neg (isDig_spec hdig).2.1, if_neg (isDig_spec hdig).2.2.1, ← hcr, hpu]
    simp only [Option.some.injEq]
    rw [hval]
    have hnum : (q.num.natAbs : ℚ) = (q.num : ℚ) := by
      have hz : (q.num.natAbs : ℤ) = q.num :=
        Int.natAbs_of_nonneg (Rat.num_nonneg.mpr (not_lt.mp hneg))
      calc (q.num.natAbs : ℚ) = ((q.num.natAbs : ℤ) : ℚ) := (Int.cast_natCast _).symm
        _ = ((q.num : ℤ) : ℚ) := by rw [hz]
        _ = (q.num : ℚ) := rfl
    rw [hnum]
    exact Rat.num_div_den q

theorem renderCore_chars {n e : ℕ} {c : Char} (h : c ∈ renderCore n e) :
    c ≠ ' ' ∧ c ≠ nbsp ∧ c ≠ ',' := by
  rcases renderCore_mem h with hdig | rfl
  · obtain ⟨-, -, -, h4, h5, h6⟩ := isDig_spec hdig
    exact ⟨h4, h5, h6⟩
  · exact ⟨by decide, by decide, by decide⟩

theorem normalizeChars_renderQ (q : ℚ) : normalizeChars (renderQ q) = renderQ q := by
  have hall : ∀ c ∈ renderQ q, c ≠ ' ' ∧ c ≠ nbsp ∧ c ≠ ',' := by
    intro c hc
    unfold renderQ at hc
    split_ifs at hc with hdq hneg
    · rcases List.mem_append.mp hc with hs | hcore
      · rcases List.mem_singleton.mp hs with rfl
        exact ⟨by decide, by decide, by decide⟩
      · exact renderCore_chars hcore
    · rcases List.mem_append.mp hc with hs | hcore
      · exact absurd hs (List.not_mem_nil c)
      · exact renderCore_chars hcore
    · rcases List.mem_singleton.mp hc with rfl
      exact ⟨by decide, by decide, by decide⟩
  unfold normalizeChars
  have hfil : (renderQ q).filter (fun c => c ≠ ' ' && c ≠ nbsp) = renderQ q := by
    rw [List.filter_eq_self]
    intro c hc
    obtain ⟨h1, h2, -⟩ := hall c hc
    simp [h1, h2]
  rw [hfil]
  have hmap : (renderQ q).map (fun c => if c = ',' then '.' else c)
      = (renderQ q).map id := by
    apply List.map_congr_left
    intro c hc
    obtain ⟨-, -, h3⟩ := hall c hc
    simp [h3]
  rw [hmap, List.map_id]

theorem toNumCell_idem (c : Cell) : toNumCell (toNumCell c) = toNumCell c := by
  cases hp : parseNum (normalizeChars (cellToChars c)) with
  | none =>
    have h1 : toNumCell c = .missing := by
      unfold toNumCell
      rw [hp]
    rw [h1]
    rfl
  | some q =>
    have h1 : toNumCell c = .num q := by
      unfold toNumCell
      rw [hp]
    rw [h1]
    have h2 : toNumCell (.num q) = .num q := by
      unfold toNumCell
      show (match parseNum (normalizeChars (renderQ q)) with
            | some q' => Cell.num q'
            | none => Cell.missing) = Cell.num q
      rw [normalizeChars_renderQ, parseNum_renderQ (parseNum_decDen hp)]
    exact h2

/-- C7: `to_num` is idempotent — re-normalising an already-normalised column
returns it unchanged: every parsed number renders (via `astype(str)`) back to
a string that parses to the same value, and the missing marker stringifies to
`"nan"`, which is coerced back to missing (formatters.py lines 9-16). -/
theorem c7_to_num_idempotent (xs : List Cell) : to_num (to_num xs) = to_num xs := by
  unfold to_num
  rw [List.map_map]
  exact List.map_congr_left (fun c _ => toNumCell_idem c)

/-- C8 counterexample: `pivot_to_payload` strips the joined column name
(insights.py line 31, `.strip()`), so a label level with trailing whitespace
does not produce the plain `" | "`-join the claim states. -/
theorem c8_counterexample :
    (pivot_to_payload c8pivot 1000).columns = ["g", "A | B"] ∧
    "A | B" ≠ String.intercalate " | " ["A", "B "] := by
  constructor
  · with_unfolding_all rfl
  · with_unfolding_all decide

/-- C8 (amended): `pivot_to_payload` joins multi-level column labels with
`" | "` preserving level order and then strips leading/trailing whitespace
from the joined name; it demotes the row key into ordinary columns named
after the index levels, keeps exactly the first `max_rows` rows (prefix
truncation), computes the per-column numeric summary over the truncated rows
for exactly the metric columns, and reports mean 0 for an all-missing
column (insights.py lines 27-53). -/
theorem c8_payload_serialization (pvt : Pivot) (max_rows : ℕ) :
    (pivot_to_payload pvt max_rows).columns
        = pvt.idxNames ++ pvt.colLabels.map (flatName pvt.multiCols) ∧
    (∀ l : List String,
        flatName true l = String.mk (stripChars (String.intercalate " | " l).data)) ∧
    (pivot_to_payload pvt max_rows).rows = (pvt.rows.take max_rows).map (resetRow pvt) ∧
    (pivot_to_payload pvt max_rows).numericSummary
        = (List.range pvt.colLabels.length).map (fun j =>
            ((pvt.colLabels.map (flatName pvt.multiCols)).getD j "",
              statsOfColumn ((pvt.rows.take max_rows).map (fun r => r.2.getD j none)))) ∧
    (∀ s : List (Option ℚ), (∀ x ∈ s, x = none) → (statsOfColumn s).cmean = 0) := by
  have htr : (if max_rows < pvt.rows.length then pvt.rows.take max_rows else pvt.rows)
      = pvt.rows.take max_rows := by
    split_ifs with h
    · rfl
    · exact (List.take_of_length_le (by omega)).symm
  refine ⟨rfl, fun l => rfl, ?_, ?_, ?_⟩
  · show (if max_rows < pvt.rows.length then pvt.rows.take max_rows else pvt.rows).map
        (resetRow pvt) = _
    rw [htr]
  · show (List.range (pvt.colLabels.map (flatName pvt.multiCols)).length).map _ = _
    rw [List.length_map, htr]
  · intro s hs
    unfold statsOfColumn
    have hfm : s.filterMap id = [] :=
      List.filterMap_eq_nil_iff.mpr (fun x hx => by rw [hs x hx]; rfl)
    simp [hfm]

/-- C8 witness: truncation and the all-missing mean at concrete inputs. -/
theorem c8_witness :
    (pivot_to_payload c8wit 1).rows = (c8wit.rows.take 1).map (resetRow c8wit) ∧
    (statsOfColumn [none, none]).cmean = 0 :=
  ⟨(c8_payload_serialization c8wit 1).2.2.1,
   (c8_payload_serialization c8wit 1).2.2.2.2 [none, none] (by decide)⟩

theorem rkLt_asymm {a b : RankKey} (h : rkLt a b = true) : rkLt b a = false := by
  cases a <;> cases b <;> simp_all [rkLt]
  · exact le_of_lt h

theorem rkLt_irrefl (a : RankKey) : rkLt a a = false := by
  cases a <;> simp [rkLt]

theorem sortLe_head_of_strict_max {α} (key : α → RankKey) (l : List α) (t : α)
    (ht : t ∈ l) (hdom : ∀ r ∈ l, r ≠ t → rkLt (key r) (key t) = true) :
    (sortLe (fun x y => !(rkLt (key x) (key y))) l).head? = some t := by
  induction l with
  | nil => exact absurd ht (List.not_mem_nil t)
  | cons x rest ih =>
    show (insertLe _ x (sortLe _ rest)).head? = some t
    by_cases hx : x = t
    · subst hx
      cases hs : sortLe (fun x y => !(rkLt (key x) (key y))) rest with
      | nil => rfl
      | cons y ys =>
        have hy : y ∈ rest := by
          have : y ∈ sortLe (fun x y => !(rkLt (key x) (key y))) rest := by
            rw [hs]
            exact List.mem_cons_self _ _
          exact (mem_sortLe _ _ _).mp this
        have hle : (!(rkLt (key x) (key y))) = true := by
          by_cases hyx : y = x
          · subst hyx
            simp [rkLt_irrefl]
          · have := hdom y (List.mem_cons_of_mem x hy) hyx
            simp [rkLt_asymm this]
        unfold insertLe
        rw [hle]
        simp
    · have ht' : t ∈ rest := by
        rcases List.mem_cons.mp ht with h | h
        · exact absurd h.symm hx
        · exact h
      have ih' := ih ht' (fun r hr hne => hdom r (List.mem_cons_of_mem x hr) hne)
      cases hs : sortLe (fun x y => !(rkLt (key x) (key y))) rest with
      | nil =>
        rw [hs] at ih'
        simp at ih'
      | cons y ys =>
        rw [hs] at ih'
        simp only [List.head?_cons, Option.some.injEq] at ih'
        subst ih'
        have hxt : rkLt (key x) (key y) = true := hdom x (List.mem_cons_self x rest) hx
        unfold insertLe
        rw [hxt]
        simp

theorem head?_take {l : List α} {n : ℕ} (hn : n ≠ 0) : (l.take n).head? = l.head? := by
  cases l with
  | nil => simp
  | cons a as =>
    cases n with
    | zero => exact absurd rfl hn
    | succ n => simp

theorem nanSum_append_single (xs : List (Option ℚ)) (x : Option ℚ) :
    nanSum (xs ++ [x]) = nanSum xs + x.getD 0 := by
  unfold nanSum
  rw [List.filterMap_append]
  cases x with
  | none => simp
  | some q => simp

theorem perm_insertLe (le : α → α → Bool) (x : α) (l : List α) :
    (insertLe le x l).Perm (x :: l) := by
  induction l with
  | nil =>
    show [x].Perm [x]
    exact List.Perm.refl _
  | cons y ys ih =>
    show (if le x y then x :: y :: ys else y :: insertLe le x ys).Perm (x :: y :: ys)
    split_ifs with h
    · exact List.Perm.refl _
    · exact (ih.cons y).trans (List.Perm.swap x y ys)

theorem perm_sortLe (le : α → α → Bool) (l : List α) : (sortLe le l).Perm l := by
  induction l with
  | nil => exact List.Perm.refl _
  | cons a as ih =>
    show (insertLe le a (sortLe le as)).Perm (a :: as)
    exact (perm_insertLe le a (sortLe le as)).trans (ih.cons a)

theorem insertLe_all_false {le : α → α → Bool} {x : α} {l : List α}
    (h : ∀ y ∈ l, le x y = false) : insertLe le x l = l ++ [x] := by
  induction l with
  | nil => rfl
  | cons y ys ih =>
    show (if le x y then x :: y :: ys else y :: insertLe le x ys) = (y :: ys) ++ [x]
    rw [h y (List.mem_cons_self y ys)]
    simp only [Bool.false_eq_true, if_false, List.cons_append]
    rw [ih (fun z hz => h z (List.mem_cons_of_mem y hz))]

theorem insertLe_getLast_of_le {le : α → α → Bool} {x t : α} {l : List α}
    (hl : l.getLast? = some t) (hxt : le x t = true) :
    (insertLe le x l).getLast? = some t := by
  induction l with
  | nil => simp at hl
  | cons y ys ih =>
    show (if le x y then x :: y :: ys else y :: insertLe le x ys).getLast? = some t
    by_cases h : le x y = true
    · rw [if_pos h, List.getLast?_cons_cons]
      exact hl
    · rw [if_neg h]
      cases ys with
      | nil =>
        simp only [List.getLast?_singleton, Option.some.injEq] at hl
        subst hl
        exact absurd hxt h
      | cons z zs =>
        rw [List.getLast?_cons_cons] at hl
        have hrec := ih hl
        have hne : insertLe le x (z :: zs) ≠ [] := by
          intro hnil
          have hlen := (perm_insertLe le x (z :: zs)).length_eq
          rw [hnil] at hlen
          simp at hlen
        cases hM : insertLe le x (z :: zs) with
        | nil => exact absurd hM hne
        | cons m ms =>
          rw [hM] at hrec
          rw [List.getLast?_cons_cons]
          exact hrec

theorem sortLe_getLast_of_strict_min {α} (key : α → RankKey) (l : List α) (t : α)
    (ht : t ∈ l) (hdom : ∀ r ∈ l, r ≠ t → rkLt (key t) (key r) = true) :
    (sortLe (fun x y => !(rkLt (key x) (key y))) l).getLast? = some t := by
  induction l with
  | nil => exact absurd ht (List.not_mem_nil t)
  | cons x rest ih =>
    show (insertLe _ x (sortLe _ rest)).getLast? = some t
    by_cases hx : x = t
    · subst hx
      by_cases hrest : x ∈ rest
      · have ihl := ih hrest (fun r hr hne => hdom r (List.mem_cons_of_mem x hr) hne)
        exact insertLe_getLast_of_le ihl (by simp [rkLt_irrefl])
      · have hall : ∀ y ∈ sortLe (fun a b => !(rkLt (key a) (key b))) rest,
            (!(rkLt (key x) (key y))) = false := by
          intro y hy
          have hyr : y ∈ rest := (mem_sortLe _ _ _).mp hy
          have hyt : y ≠ x := fun he => hrest (he ▸ hyr)
          have := hdom y (List.mem_cons_of_mem x hyr) hyt
          simp [this]
        rw [insertLe_all_false hall]
        exact List.getLast?_concat _
    · have ht' : t ∈ rest := by
        rcases List.mem_cons.mp ht with h | h
        · exact absurd h.symm hx
        · exact h
      have ihl := ih ht' (fun r hr hne => hdom r (List.mem_cons_of_mem x hr) hne)
      have hxt : (!(rkLt (key x) (key t))) = true := by
        have := hdom x (List.mem_cons_self x rest) hx
        simp [rkLt_asymm this]
      exact insertLe_getLast_of_le ihl hxt

theorem getLast?_drop_of_lt {l : List α} {k : ℕ} (h : k < l.length) :
    (l.drop k).getLast? = l.getLast? := by
  induction l generalizing k with
  | nil => simp at h
  | cons a as ih =>
    cases k with
    | zero => rfl
    | succ k =>
      have hk : k < as.length := by simpa using h
      rw [List.drop_succ_cons, ih hk]
      cases as with
      | nil => simp at hk
      | cons b bs => exact (List.getLast?_cons_cons).symm

set_option maxRecDepth 100000 in
/-- C10 counterexample: the payload keeps only the first 1000 rows, so for a
pivot with 1000 body rows the trailing synthetic Total row is truncated away
and is not among the payload rows the analysis engine sees. -/
theorem c10_counterexample :
    (pivot_to_payload c10big 1000).rows.length = 1000 ∧
    resetRow c10big (["Total"], [some 5]) ∉ (pivot_to_payload c10big 1000).rows := by
  constructor
  · with_unfolding_all rfl
  · with_unfolding_all decide

/-- C10 (amended): provided the pivot has at most `max_rows` rows, the
payload contains every pivot row — including the synthetic Total and
Subtotal rows — as ordinary data rows in order, and the analysis engine
treats them like any other row: every column series (hence every weighted
sum) ranges over all of them, a trailing synthetic row contributing its
value to the sum; the dispersion statistics on the primary metric are taken
over the non-missing primary values of all of them; the top-5/bottom-5
ranking is cut from a descending reordering of all of them; a payload row
whose primary-metric key strictly dominates every other row is ranked first,
and one strictly dominated by every other row heads the bottom list
(insights.py lines 27-53 and 116-181). -/
theorem c10_totals_rank_first (pvt : Pivot) (max_rows : ℕ)
    (hlen : pvt.rows.length ≤ max_rows) :
    (pivot_to_payload pvt max_rows).rows = pvt.rows.map (resetRow pvt) ∧
    (∀ r ∈ pvt.rows, resetRow pvt r ∈ (pivot_to_payload pvt max_rows).rows) ∧
    (∀ c : String,
        colSeries (pivot_to_payload pvt max_rows) c
          = pvt.rows.map (fun r => (lookupRow (resetRow pvt r) c).bind cellNum)) ∧
    (∀ (c : String) (body : List (List String × List (Option ℚ)))
        (t : List String × List (Option ℚ)),
        pvt.rows = body ++ [t] →
        nanSum (colSeries (pivot_to_payload pvt max_rows) c)
          = nanSum (body.map (fun r => (lookupRow (resetRow pvt r) c).bind cellNum))
            + ((lookupRow (resetRow pvt t) c).bind cellNum).getD 0) ∧
    (∀ kc : String,
        (_infer_metrics_from_payload (pivot_to_payload pvt max_rows)).primary = some kc →
        kc ≠ "" →
        (colSeries (pivot_to_payload pvt max_rows) kc).any Option.isSome = true →
        dispersion_on_primary (pivot_to_payload pvt max_rows)
          = some (dispersionOf
              ((pvt.rows.map (fun r =>
                (lookupRow (resetRow pvt r) kc).bind cellNum)).filterMap id))) ∧
    (∀ (kc : String) (rk : Ranking),
        build_ranked (pivot_to_payload pvt max_rows).rows (some kc) 5 = some rk →
        (sortLe (fun x y => !(rkLt (getv kc x) (getv kc y)))
            (pivot_to_payload pvt max_rows).rows).Perm
          (pivot_to_payload pvt max_rows).rows ∧
        rk.top = (sortLe (fun x y => !(rkLt (getv kc x) (getv kc y)))
            (pivot_to_payload pvt max_rows).rows).take 5 ∧
        rk.bottom = ((sortLe (fun x y => !(rkLt (getv kc x) (getv kc y)))
            (pivot_to_payload pvt max_rows).rows).drop
              ((sortLe (fun x y => !(rkLt (getv kc x) (getv kc y)))
                (pivot_to_payload pvt max_rows).rows).length - 5)).reverse) ∧
    (∀ (kc : String) (t : List (String × Cell)) (rk : Ranking),
        t ∈ (pivot_to_payload pvt max_rows).rows →
        build_ranked (pivot_to_payload pvt max_rows).rows (some kc) 5 = some rk →
        (∀ r ∈ (pivot_to_payload pvt max_rows).rows, r ≠ t →
          rkLt (getv kc r) (getv kc t) = true) →
        rk.top.head? = some t) ∧
    (∀ (kc : String) (t : List (String × Cell)) (rk : Ranking),
        t ∈ (pivot_to_payload pvt max_rows).rows →
        build_ranked (pivot_to_payload pvt max_rows).rows (some kc) 5 = some rk →
        (∀ r ∈ (pivot_to_payload pvt max_rows).rows, r ≠ t →
          rkLt (getv kc t) (getv kc r) = true) →
        rk.bottom.head? = some t) := by
  have hrows : (pivot_to_payload pvt max_rows).rows = pvt.rows.map (resetRow pvt) := by
    show (if max_rows < pvt.rows.length then pvt.rows.take max_rows else pvt.rows).map
        (resetRow pvt) = _
    rw [if_neg (by omega)]
  have hcol : ∀ c : String,
      colSeries (pivot_to_payload pvt max_rows) c
        = pvt.rows.map (fun r => (lookupRow (resetRow pvt r) c).bind cellNum) := by
    intro c
    unfold colSeries
    rw [hrows, List.map_map]
    rfl
  refine ⟨hrows, ?_, hcol, ?_, ?_, ?_, ?_, ?_⟩
  · intro r hr
    rw [hrows]
    exact List.mem_map.mpr ⟨r, hr, rfl⟩
  · intro c body t hsplit
    rw [hcol c, hsplit, List.map_append]
    simp only [List.map_cons, List.map_nil]
    exact nanSum_append_single _ _
  · intro kc hkc hne hany
    unfold dispersion_on_primary
    rw [hkc]
    dsimp only
    rw [if_neg hne, if_pos hany, hcol kc]
  · intro kc rk hrk
    unfold build_ranked at hrk
    simp only [Option.some.injEq] at hrk
    subst hrk
    exact ⟨perm_sortLe _ _, rfl, rfl⟩
  · intro kc t rk htmem hrk hdom
    unfold build_ranked at hrk
    simp only [Option.some.injEq] at hrk
    subst hrk
    show ((sortLe _ (pivot_to_payload pvt max_rows).rows).take 5).head? = some t
    rw [head?_take (by omega)]
    exact sortLe_head_of_strict_max (getv kc) _ t htmem hdom
  · intro kc t rk htmem hrk hdom
    unfold build_ranked at hrk
    simp only [Option.some.injEq] at hrk
    subst hrk
    show (((sortLe _ (pivot_to_payload pvt max_rows).rows).drop _).reverse).head? = some t
    rw [List.head?_reverse]
    have hmem : t ∈ sortLe (fun x y => !(rkLt (getv kc x) (getv kc y)))
        (pivot_to_payload pvt max_rows).rows := (mem_sortLe _ _ _).mpr htmem
    have hpos : 0 < (sortLe (fun x y => !(rkLt (getv kc x) (getv kc y)))
        (pivot_to_payload pvt max_rows).rows).length :=
      List.length_pos.mpr (List.ne_nil_of_mem hmem)
    rw [getLast?_drop_of_lt (by omega)]
    exact sortLe_getLast_of_strict_min (getv kc) _ t htmem hdom

/-- C10 witness: at a concrete pivot whose Total row dominates the single
body row, the Total row appears in the payload, contributes its value to the
column sum, feeds the dispersion sample, and is ranked first, while the
dominated body row heads the bottom list. -/
theorem c10_witness :
    resetRow c10small (["Total"], [some 13]) ∈ (pivot_to_payload c10small 1000).rows ∧
    nanSum (colSeries (pivot_to_payload c10small 1000) "Spend")
      = nanSum ([(["x"], [some 3])].map (fun r =>
          (lookupRow (resetRow c10small r) "Spend").bind cellNum))
        + ((lookupRow (resetRow c10small (["Total"], [some 13])) "Spend").bind
            cellNum).getD 0 ∧
    dispersion_on_primary (pivot_to_payload c10small 1000)
      = some (dispersionOf ((c10small.rows.map (fun r =>
          (lookupRow (resetRow c10small r) "Spend").bind cellNum)).filterMap id)) ∧
    (∀ rk : Ranking,
        build_ranked (pivot_to_payload c10small 1000).rows (some "Spend") 5 = some rk →
        rk.top.head? = some (resetRow c10small (["Total"], [some 13])) ∧
        rk.bottom.head? = some (resetRow c10small (["x"], [some 3]))) :=
  ⟨(c10_totals_rank_first c10small 1000 (by decide)).2.1 (["Total"], [some 13])
      (by decide),
   (c10_totals_rank_first c10small 1000 (by decide)).2.2.2.1 "Spend"
      [(["x"], [some 3])] (["Total"], [some 13]) (by with_unfolding_all rfl),
   (c10_totals_rank_first c10small 1000 (by decide)).2.2.2.2.1 "Spend"
      (by with_unfolding_all rfl) (by decide) (by with_unfolding_all rfl),
   fun rk hrk =>
    ⟨(c10_totals_rank_first c10small 1000 (by decide)).2.2.2.2.2.2.1 "Spend"
        (resetRow c10small (["Total"], [some 13])) rk
        (by with_unfolding_all decide) hrk
        (by with_unfolding_all decide),
     (c10_totals_rank_first c10small 1000 (by decide)).2.2.2.2.2.2.2 "Spend"
        (resetRow c10small (["x"], [some 3])) rk
        (by with_unfolding_all decide) hrk
        (by with_unfolding_all decide)⟩⟩

end MediaInsights
